import Mathlib

/-!
# Ramdisk cpio patcher (`native/src/boot/ramdisk.cpp`)

A shallow embedding of `magisk_cpio` (`patch`, `test`, `restore`, `backup`) and of the
command loop `cpio_commands`, with the properties of the specification proved over it.

Bytes are natural numbers, byte strings are lists of bytes, and the entry map of a cpio
archive is an association list kept in the iteration order of the C++ map (ascending
keys, no key twice).
-/

namespace Ramdisk

/-! ## Byte strings -/

/-- A byte string: the contents of a `std::string`, a `string_view` or a data buffer. -/
abbrev Bytes := List Nat

/-- The bytes of a string literal of the source. -/
def str (s : String) : Bytes := s.toList.map Char.toNat

/-- A `const char *` view of a byte string: it ends before the first NUL byte. -/
def cstr (s : Bytes) : Bytes := s.takeWhile (fun b => b != 0)

/-- The result of `std::string::compare`: negative, zero or positive, bytes compared as
unsigned values and a proper prefix ordered before the longer string. -/
def strCompare : Bytes → Bytes → Int
  | [], [] => 0
  | [], _ :: _ => -1
  | _ :: _, [] => 1
  | a :: as, b :: bs => if a < b then -1 else if b < a then 1 else strCompare as bs

/-- Modelled from the spec: `str_starts` of the base library, which is not part of the
file; the path starts with the given prefix. -/
def str_starts (s pre : Bytes) : Bool := pre.isPrefixOf s

/-- Whether `pat` occurs in `s` starting at its first byte or later. -/
def containsAt (pat : Bytes) : Bytes → Bool
  | [] => pat.isPrefixOf []
  | b :: bs => pat.isPrefixOf (b :: bs) || containsAt pat bs

/-- Modelled from the spec: `str_contains` of the base library, which is not part of the
file; raw substring matching. -/
def str_contains (s pat : Bytes) : Bool := containsAt pat s

/-! ## Entries and the entry map -/

/-- Modelled from the spec: the archive member `cpio_entry` (declared in cpio.hpp), with
the two fields that the operations read, the mode word and the data buffer. The secondary
cpio metadata, which no operation reads or writes, is left out. -/
structure Entry where
  mode : Nat
  data : Bytes
deriving DecidableEq, Repr

/-- The type bits of a mode word. -/
def S_IFMT : Nat := 0o170000
/-- The type bits of a directory. -/
def S_IFDIR : Nat := 0o040000
/-- The type bits of a regular file. -/
def S_IFREG : Nat := 0o100000

/-- The POSIX test for a regular file. -/
def S_ISREG (mode : Nat) : Bool := mode &&& S_IFMT == S_IFREG

/-- The entry map `entries` (an ordered map from path to entry): the pairs of path and
entry in iteration order. -/
abbrev Store := List (Bytes × Entry)

/-- The map invariant: keys strictly ascending in the order of the comparator. -/
def WF (S : Store) : Prop := S.Pairwise (fun a b => strCompare a.1 b.1 < 0)

instance (S : Store) : Decidable (WF S) := by
  unfold WF; infer_instance

/-- The paths of a store in iteration order. -/
def keys (S : Store) : List Bytes := S.map Prod.fst

/-- Lookup of a path (`entries.find`). -/
def find : Store → Bytes → Option Entry
  | [], _ => none
  | (k, e) :: t, q => if k = q then some e else find t q

/-- Modelled from the spec: `cpio::exists` (declared in cpio.hpp), the membership test. -/
def exists_ (S : Store) (name : Bytes) : Bool := (find S name).isSome

/-- Erasing the node of a key (`entries.erase(it)`, `rm(it)` on a valid iterator). -/
def erase (S : Store) (k : Bytes) : Store := S.filter (fun kv => kv.1 != k)

/-- Modelled from the spec: `cpio::rm(name, r)` (declared in cpio.hpp). Without the
recursive flag the entry named `name` is removed if present; with it, every entry whose
path equals `name` or begins with `name + "/"`. -/
def rm (S : Store) (name : Bytes) (r : Bool) : Store :=
  if r then S.filter (fun kv => !(kv.1 == name || str_starts kv.1 (name ++ str "/")))
  else erase S name

/-- Modelled from the spec: the insertion used by `move` and `merge` (cpio.hpp), which
puts the entry at its place in key order and overwrites an entry of the same path. -/
def insert : Store → Bytes → Entry → Store
  | [], k, e => [(k, e)]
  | (k', e') :: t, k, e =>
    if strCompare k k' < 0 then (k, e) :: (k', e') :: t
    else if k = k' then (k, e) :: t
    else (k', e') :: insert t k e

/-- The map's `emplace`: the entry is added only when its path is not yet present. -/
def emplace (S : Store) (k : Bytes) (e : Entry) : Store :=
  if (find S k).isSome then S else insert S k e

/-- Modelled from the spec: `merge` of the entry map (cpio.hpp): every entry of the other
store moves into this one, and on a key collision the incoming entry wins. -/
def merge (S other : Store) : Store :=
  other.foldl (fun acc kv => insert acc kv.1 kv.2) S

/-- Modelled from the spec: `cpio::mv(it, name)` (declared in cpio.hpp): the entry of the
iterator is renamed to `name`, overwriting an entry of that name. The iterator is the key
it points to; a key that is no longer in the map is an invalidated iterator, for which
the call has no defined result. -/
def mvIt (S : Store) (k name : Bytes) : Option Store :=
  match find S k with
  | none => none
  | some e => some (insert (erase S k) name e)

/-! ## `patch` -/

/-- The process environment as `getenv` sees it. -/
abbrev Env := Bytes → Option Bytes

/-- The function `check_env`: the variable is set and its value is exactly `true`. -/
def check_env (env : Env) (name : Bytes) : Bool :=
  match env name with
  | none => false
  | some val => val == str "true"

/-- The two buffer rewriters of the fstab patcher (declared in magiskboot.hpp); the
operations only call them. -/
structure Patcher where
  patch_verity : Bytes → Bytes
  patch_encryption : Bytes → Bytes

/-- One turn of the loop of `patch` on the entry under `cur`: `none` when the turn
removes the entry (`rm(cur); continue`), otherwise the entry as the turn leaves it. -/
def patchEntry (P : Patcher) (keepverity keepforceencrypt : Bool) (cur : Bytes × Entry) :
    Option (Bytes × Entry) :=
  let fstab := (!keepverity || !keepforceencrypt) &&
    S_ISREG cur.2.mode &&
    !str_starts cur.1 (str ".backup") &&
    !str_contains cur.1 (str "twrp") &&
    !str_contains cur.1 (str "recovery") &&
    str_contains cur.1 (str "fstab")
  let verityTurn : Option Bytes :=
    if !keepverity then
      if fstab then some (P.patch_verity cur.2.data)
      else if cur.1 = str "verity_key" then none
      else some cur.2.data
    else some cur.2.data
  match verityTurn with
  | none => none
  | some data =>
    some (cur.1, { cur.2 with
      data := if !keepforceencrypt && fstab then P.patch_encryption data else data })

/-- The method `magisk_cpio::patch`: every entry is visited once in iteration order. -/
def patch (P : Patcher) (env : Env) (S : Store) : Store :=
  let keepverity := check_env env (str "KEEPVERITY")
  let keepforceencrypt := check_env env (str "KEEPFORCEENCRYPT")
  S.filterMap (patchEntry P keepverity keepforceencrypt)

/-! ## `test` -/

/-- The table `UNSUPPORT_LIST`. -/
def UNSUPPORT_LIST : List Bytes :=
  [str "sbin/launch_daemonsu.sh", str "sbin/su", str "init.xposed.rc",
   str "boot/sbin/launch_daemonsu.sh"]

/-- The table `MAGISK_LIST`. -/
def MAGISK_LIST : List Bytes :=
  [str ".backup/.magisk", str "init.magisk.rc", str "overlay/init.magisk.rc"]

/-- Bit 0 of the result of `test`. -/
def MAGISK_PATCHED : Nat := 1 <<< 0
/-- Bit 1 of the result of `test`. -/
def UNSUPPORTED_CPIO : Nat := 1 <<< 1
/-- Bit 2 of the result of `test`. -/
def SONY_INIT : Nat := 1 <<< 2

/-- The method `magisk_cpio::test`. -/
def test (S : Store) : Nat :=
  if UNSUPPORT_LIST.any (fun file => exists_ S file) then UNSUPPORTED_CPIO
  else
    let ret := if MAGISK_LIST.any (fun file => exists_ S file) then 0 ||| MAGISK_PATCHED else 0
    if exists_ S (str "init.real") then ret ||| SONY_INIT else ret

/-! ## `restore` -/

/-- The loop `for_each_str` with the cursor at the start of `buf`: the NUL-terminated
string at the cursor is visited and the cursor moves past its NUL, until the cursor
reaches the end of the buffer. A string that no NUL ends inside the buffer makes `strlen`
read past the buffer, which has no defined result. Each turn consumes at least one byte,
so a fuel of the buffer's length is never used up. -/
def forEachStrFuel : Nat → Bytes → Option (List Bytes)
  | 0, _ => some []
  | fuel + 1, buf =>
    if buf = [] then some []
    else if buf.contains 0 then
      (forEachStrFuel fuel (buf.drop ((cstr buf).length + 1))).map (fun l => cstr buf :: l)
    else none

/-- The strings that `for_each_str` visits in a buffer. -/
def for_each_str (buf : Bytes) : Option (List Bytes) := forEachStrFuel buf.length buf

/-- Modelled from the spec: `cpio::rm(it)` (declared in cpio.hpp): the node of the
iterator is erased, and the end iterator (`none`) is left alone. -/
def rmIt (S : Store) (it : Option Bytes) : Store :=
  match it with
  | none => S
  | some k => erase S k

/-- What the first loop of `restore` collects: the iterators `bk`, `rl`, `mg` and the
vector `backups` of iterators. An iterator is held as the key of its node, and `none` is
`entries.end()`. -/
structure Collected where
  bk : Option Bytes
  rl : Option Bytes
  mg : Option Bytes
  backups : List Bytes
deriving DecidableEq, Repr

/-- One turn of the collecting loop of `restore`. -/
def collectStep (c : Collected) (it : Bytes × Entry) : Collected :=
  if it.1 = str ".backup" then { c with bk := some it.1 }
  else if it.1 = str ".backup/.rmlist" then { c with rl := some it.1 }
  else if it.1 = str ".backup/.magisk" then { c with mg := some it.1 }
  else if str_starts it.1 (str ".backup/") then { c with backups := c.backups ++ [it.1] }
  else c

/-- The collecting loop of `restore`. -/
def collect (S : Store) : Collected :=
  S.foldl collectStep { bk := none, rl := none, mg := none, backups := [] }

/-- The removals of `restore` driven by the removal list under the iterator `rl`: each
listed name is removed, then the list itself. A listed name that is the list's own path
erases the node whose buffer is being read, which has no defined result. -/
def removeListed (S : Store) (rl : Option Bytes) : Option Store :=
  match rl with
  | none => some S
  | some it =>
    match find S it with
    | none => none
    | some e =>
      match for_each_str e.data with
      | none => none
      | some files =>
        if files.contains it then none
        else some (rmIt (files.foldl (fun acc file => rm acc file false) S) (some it))

/-- The restoring loop of `restore`: every collected iterator is moved to the name that
starts at byte 8 of its key, passed as a C string. -/
def restoreFiles : List Bytes → Store → Option Store
  | [], S => some S
  | it :: rest, S =>
    match mvIt S it (cstr (it.drop 8)) with
    | none => none
    | some S' => restoreFiles rest S'

/-- The method `magisk_cpio::restore`; `none` where the C++ has no defined result (an
iterator used after its node was erased, a read past the removal list's buffer). -/
def restore (S : Store) : Option Store :=
  let c := collect S
  if c.bk.isSome && c.mg.isSome && c.rl.isNone && c.backups.isEmpty then some []
  else
    match removeListed (rmIt (rmIt S c.bk) c.mg) c.rl with
    | none => none
    | some S3 => restoreFiles c.backups S3

/-! ## `backup` -/

/-- The directory entry that `backup` puts under `.backup` (`cpio_entry(S_IFDIR)`). -/
def dirEntry : Entry := { mode := S_IFDIR, data := [] }

/-- The regular file built from the removal list (`cpio_entry(S_IFREG, rm)`). -/
def rmListEntry (rm_list : Bytes) : Entry := { mode := S_IFREG, data := rm_list }

/-- The merge walk of `backup` over the remaining entries `lhs` of the reference store
and `rhs` of the current store, with the staging map `backups` and the removal list
`rm_list` built so far. Each turn advances at least one side, so a fuel of the two
lengths together is never used up. -/
def walkFuel : Nat → Store → Store → Store → Bytes → Store × Bytes
  | 0, _, _, backups, rm_list => (backups, rm_list)
  | fuel + 1, lhs, rhs, backups, rm_list =>
    match lhs, rhs with
    | [], [] => (backups, rm_list)
    | l :: ls, [] =>
      walkFuel fuel ls [] (emplace backups (str ".backup/" ++ l.1) l.2) rm_list
    | [], r :: rs =>
      walkFuel fuel [] rs backups (rm_list ++ r.1 ++ [0])
    | l :: ls, r :: rs =>
      let res := strCompare l.1 r.1
      if res < 0 then
        walkFuel fuel ls (r :: rs) (emplace backups (str ".backup/" ++ l.1) l.2) rm_list
      else if res = 0 then
        if l.2.data ≠ r.2.data then
          walkFuel fuel ls rs (emplace backups (str ".backup/" ++ l.1) l.2) rm_list
        else walkFuel fuel ls rs backups rm_list
      else
        walkFuel fuel (l :: ls) rs backups (rm_list ++ r.1 ++ [0])

/-- The method `magisk_cpio::backup`, from the point where the reference archive has been
loaded into `o` (the empty store when the file cannot be read). -/
def backup (o S : Store) : Store :=
  let backups0 : Store := emplace [] (str ".backup") dirEntry
  let o1 := rm o (str ".backup") true
  let S1 := rm S (str ".backup") true
  let w := walkFuel (o1.length + S1.length) o1 S1 backups0 []
  let backups := if w.2 ≠ [] then emplace w.1 (str ".backup/.rmlist") (rmListEntry w.2) else w.1
  if backups.length > 1 then merge S1 backups else S1

/-! ## The command loop -/

/-- The collaborators of the command loop that the file only calls: the two fstab
rewriters, the process environment, the loader (`access(file, R_OK) == 0` followed by
`load_cpio`, `none` for a file that cannot be read), and the methods of the base class
`cpio` that none of the four operations uses. -/
structure World where
  patcher : Patcher
  env : Env
  load_cpio : Bytes → Option Store
  mv : Store → Bytes → Bytes → Store
  extract : Store → Bytes → Bytes → Bool
  mkdir : Store → Nat → Bytes → Store
  ln : Store → Bytes → Bytes → Store
  add : Store → Nat → Bytes → Bytes → Store
  strtoul8 : Bytes → Nat

/-- The tokens that `strtok` with the delimiter `" "` finds in a string, `cur` being the
bytes of the token under way in reverse: runs of spaces separate, no token is empty. -/
def strtokAll : Bytes → Bytes → List Bytes
  | [], cur => if cur = [] then [] else [cur.reverse]
  | c :: cs, cur =>
    if c = 32 then (if cur = [] then strtokAll cs [] else cur.reverse :: strtokAll cs [])
    else strtokAll cs (c :: cur)

/-- The splitting loop of `cpio_commands` on one argument (a C string): `cmdv[0..cmdc)`.
A first token starting with `#` stops the loop with `cmdc = 0`, and at most six tokens
are kept. -/
def splitCommand (arg : Bytes) : List Bytes :=
  let toks := strtokAll (cstr arg) []
  match toks with
  | [] => []
  | tok :: _ => if tok.head? = some 35 then [] else toks.take 6

/-- What one turn of the command loop does. -/
inductive Step where
  | next (S : Store)
  | exit (code : Nat)
  | ret (code : Nat)
  | undefined
deriving DecidableEq, Repr

/-- The branch chain of `cpio_commands` on the tokens `cmdv[0..cmdc)` of one command. -/
def runCommand (w : World) (S : Store) (cmdv : List Bytes) : Step :=
  let cmdc := cmdv.length
  let arg (i : Nat) : Bytes := cmdv.getD i []
  if cmdc = 0 then .next S
  else if arg 0 = str "test" then .exit (test S)
  else if arg 0 = str "restore" then
    match restore S with
    | none => .undefined
    | some S' => .next S'
  else if arg 0 = str "patch" then .next (patch w.patcher w.env S)
  else if cmdc = 2 ∧ arg 0 = str "exists" then .exit (if exists_ S (arg 1) then 0 else 1)
  else if cmdc = 2 ∧ arg 0 = str "backup" then
    .next (backup ((w.load_cpio (arg 1)).getD []) S)
  else if cmdc ≥ 2 ∧ arg 0 = str "rm" then
    let r : Bool := decide (cmdc > 2) && arg 1 == str "-r"
    .next (rm S (arg (1 + r.toNat)) r)
  else if cmdc = 3 ∧ arg 0 = str "mv" then .next (w.mv S (arg 1) (arg 2))
  else if arg 0 = str "extract" then
    if cmdc = 3 then .ret (if w.extract S (arg 1) (arg 2) then 0 else 1)
    else .ret 0
  else if cmdc = 3 ∧ arg 0 = str "mkdir" then .next (w.mkdir S (w.strtoul8 (arg 1)) (arg 2))
  else if cmdc = 3 ∧ arg 0 = str "ln" then .next (w.ln S (arg 1) (arg 2))
  else if cmdc = 4 ∧ arg 0 = str "add" then
    .next (w.add S (w.strtoul8 (arg 1)) (arg 2) (arg 3))
  else .ret 1

/-- How an invocation of `cpio_commands` ends: the process exits with a status and
nothing is written, or the function returns a status, having dumped a store to the
archive path (`some`) or not (`none`); or the run has no defined result. -/
inductive Outcome where
  | exited (code : Nat)
  | returned (code : Nat) (dumped : Option Store)
  | undefined
deriving DecidableEq, Repr

/-- The command loop of `cpio_commands` from the store `S` on, followed by the dump. -/
def runCommands (w : World) : Store → List Bytes → Outcome
  | S, [] => .returned 0 (some S)
  | S, arg :: rest =>
    match runCommand w S (splitCommand arg) with
    | .next S' => runCommands w S' rest
    | .exit code => .exited code
    | .ret code => .returned code none
    | .undefined => .undefined

/-- The function `cpio_commands`: `incpio` is `argv[0]`, the commands are the other
arguments. -/
def cpio_commands (w : World) (incpio : Bytes) (args : List Bytes) : Outcome :=
  runCommands w ((w.load_cpio incpio).getD []) args

/-! ## Vocabulary of the statements -/

/-- The keys that the collecting loop puts into `backups`. -/
def isOtherBackup (k : Bytes) : Bool :=
  k != str ".backup" && k != str ".backup/.rmlist" && k != str ".backup/.magisk" &&
    str_starts k (str ".backup/")

/-- An environment in which `KEEPVERITY` is `TRUE` in capitals and `KEEPFORCEENCRYPT`
is `true`. -/
def envUpper : Env := fun name =>
  if name = str "KEEPVERITY" then some (str "TRUE")
  else if name = str "KEEPFORCEENCRYPT" then some (str "true") else none

/-- The verbs that the branch chain of `cpio_commands` knows. -/
def verbs : List Bytes :=
  [str "test", str "restore", str "patch", str "exists", str "backup", str "rm", str "mv",
   str "extract", str "mkdir", str "ln", str "add"]

/-- The commands that the branch chain turns down: at least one token, and either the
first token is no verb, or the verb is one whose branch checks the token count and the
count is not the one it asks for. -/
def rejected (cmdv : List Bytes) : Prop :=
  cmdv ≠ [] ∧
    (cmdv.getD 0 [] ∉ verbs ∨
     ((cmdv.getD 0 [] = str "exists" ∨ cmdv.getD 0 [] = str "backup") ∧ cmdv.length ≠ 2) ∨
     (cmdv.getD 0 [] = str "rm" ∧ cmdv.length < 2) ∨
     ((cmdv.getD 0 [] = str "mv" ∨ cmdv.getD 0 [] = str "mkdir" ∨ cmdv.getD 0 [] = str "ln") ∧
        cmdv.length ≠ 3) ∨
     (cmdv.getD 0 [] = str "add" ∧ cmdv.length ≠ 4))

instance (cmdv : List Bytes) : Decidable (rejected cmdv) := by
  unfold rejected; infer_instance

/-- A world whose collaborators do nothing: no file can be read, the rewriters and the
other archive methods change nothing. -/
def idleWorld : World :=
  { patcher := ⟨id, id⟩
    env := fun _ => none
    load_cpio := fun _ => none
    mv := fun S _ _ => S
    extract := fun _ _ _ => false
    mkdir := fun S _ _ => S
    ln := fun S _ _ => S
    add := fun S _ _ _ => S
    strtoul8 := fun _ => 0 }

/-- The paths that `rm(".backup", true)` removes. -/
def isBackupPath (k : Bytes) : Bool :=
  k == str ".backup" || str_starts k (str ".backup/")

/-- A reference entry that the walk backs up: its path is missing from the current
store, or the data there differs. -/
def lostOrChanged (R : Store) (kv : Bytes × Entry) : Bool :=
  match find R kv.1 with
  | none => true
  | some e' => decide (kv.2.data ≠ e'.data)

/-- A current entry that the walk records as new: its path is missing from the reference
store. -/
def isNew (L : Store) (kv : Bytes × Entry) : Bool := (find L kv.1).isNone

/-- The staging map after the listed reference entries were emplaced under `.backup/`. -/
def stage (B : Store) (l : Store) : Store :=
  l.foldl (fun acc kv => emplace acc (str ".backup/" ++ kv.1) kv.2) B

/-- The removal list of the listed paths: each path followed by one NUL byte. -/
def rmListOf : List Bytes → Bytes
  | [] => []
  | k :: ks => k ++ [0] ++ rmListOf ks

/-- The entries of a list under the keys `".backup/" + path`. -/
def prefixed (l : Store) : Store := l.map (fun kv => (str ".backup/" ++ kv.1, kv.2))

/-- The reference entries that `backup` saves: those of the reference store (cleared of
`.backup`) that are missing from the cleared current store or differ there in data. -/
def lost (o S : Store) : Store :=
  (rm o (str ".backup") true).filter (lostOrChanged (rm S (str ".backup") true))

/-- The paths that `backup` lists for removal: those of the cleared current store that
the cleared reference store does not have, in iteration order. -/
def added (o S : Store) : List Bytes :=
  keys ((rm S (str ".backup") true).filter (isNew (rm o (str ".backup") true)))

/-- The staging map `backups` at the end of `backup`. -/
def staged (o S : Store) : Store :=
  if rmListOf (added o S) ≠ [] then
    emplace (stage (emplace [] (str ".backup") dirEntry) (lost o S)) (str ".backup/.rmlist")
      (rmListEntry (rmListOf (added o S)))
  else stage (emplace [] (str ".backup") dirEntry) (lost o S)

/-- The entry that a round trip of `backup` and `restore` leaves at a path: nothing where
the reference store has nothing, the current entry where both stores hold the same data,
and the reference entry otherwise. -/
def roundTrip (o S : Store) (q : Bytes) : Option Entry :=
  match find o q with
  | none => none
  | some e =>
    match find S q with
    | none => some e
    | some e' => if e.data = e'.data then some e' else some e

/-- The part of the fstab test of `patch` that does not depend on the flags: a regular
file whose path does not start with `.backup`, contains neither `twrp` nor `recovery`,
and contains `fstab`. -/
def fstabFile (k : Bytes) (mode : Nat) : Bool :=
  S_ISREG mode &&
    !str_starts k (str ".backup") &&
    !str_contains k (str "twrp") &&
    !str_contains k (str "recovery") &&
    str_contains k (str "fstab")

/-- The data that one turn of `patch` leaves in an entry that it keeps. -/
def patchedData (P : Patcher) (kv kfe : Bool) (k : Bytes) (e : Entry) : Bytes :=
  if fstabFile k e.mode = true then
    if kv = true then (if kfe = true then e.data else P.patch_encryption e.data)
    else if kfe = true then P.patch_verity e.data
    else P.patch_encryption (P.patch_verity e.data)
  else e.data

/-- An environment in which `KEEPVERITY` and `KEEPFORCEENCRYPT` are both `true`. -/
def envKeepBoth : Env := fun name =>
  if name = str "KEEPVERITY" then some (str "true")
  else if name = str "KEEPFORCEENCRYPT" then some (str "true") else none

/-- Rewriters that leave a mark: `patch_verity` appends the byte 1 and `patch_encryption`
the byte 2. -/
def markPatcher : Patcher := ⟨fun d => d ++ [1], fun d => d ++ [2]⟩

/-- Rewriters that strip a mark: `patch_verity` drops every byte 1 and
`patch_encryption` every byte 2. -/
def stripPatcher : Patcher :=
  ⟨fun d => d.filter (fun b => b != 1), fun d => d.filter (fun b => b != 2)⟩

/-- Two rewriters that are each idempotent and whose composite is not: `patch_verity`
turns `[0]` into `[1]`, `patch_encryption` turns `[5]` into `[0]` and `[1]` into `[2]`,
and both leave every other buffer as it is. -/
def clashPatcher : Patcher :=
  ⟨fun d => if d = [0] then [1] else d,
   fun d => if d = [5] then [0] else if d = [1] then [2] else d⟩

/-- A world like `idleWorld` in which the archive `boot.cpio` can be read and holds the
one file `foo`. -/
def fooWorld : World :=
  { idleWorld with
    load_cpio := fun p =>
      if p = str "boot.cpio" then some [(str "foo", ⟨0o100644, str "F"⟩)] else none }

/-- A world like `fooWorld` in which a second archive `orig.cpio` can be read as well; it
holds the same file `foo`. -/
def refWorld : World :=
  { idleWorld with
    load_cpio := fun p =>
      if p = str "boot.cpio" then some [(str "foo", ⟨0o100644, str "F"⟩)]
      else if p = str "orig.cpio" then some [(str "foo", ⟨0o100644, str "F"⟩)]
      else none }

/-- The world `refWorld` after an invocation dumped the empty store to `boot.cpio`. -/
def refWorldAfter : World :=
  { idleWorld with
    load_cpio := fun p =>
      if p = str "boot.cpio" then some []
      else if p = str "orig.cpio" then some [(str "foo", ⟨0o100644, str "F"⟩)]
      else none }

/-- Modelled from the spec: what the next invocation finds on the host after `dump` wrote
the store `S` to the archive (`dump` and `load_cpio` of the codec, cpio.hpp, with
`load(dump(S)) = S`). `isArchive` marks the host paths that name the archive file, the
archive path `incpio` among them. Loading the archive path gives `S`; loading a path that
does not name the archive, and `add` reading a file that does not name the archive, give
what they gave before the dump; the other collaborators are as before. What `add` reads
under a name of the archive, and what another name of the archive loads, is left open. -/
def Reloaded (w : World) (isArchive : Bytes → Bool) (incpio : Bytes) (S : Store)
    (w' : World) : Prop :=
  isArchive incpio = true ∧
  w'.load_cpio incpio = some S ∧
  (∀ p, isArchive p = false → w'.load_cpio p = w.load_cpio p) ∧
  (∀ T mode name file, isArchive file = false →
    w'.add T mode name file = w.add T mode name file) ∧
  w'.patcher = w.patcher ∧ w'.env = w.env ∧ w'.mv = w.mv ∧ w'.extract = w.extract ∧
  w'.mkdir = w.mkdir ∧ w'.ln = w.ln ∧ w'.strtoul8 = w.strtoul8

/-- The paths of a store are C strings: every name reaches the program as a
`const char *` (from the loaded archive or from the command line), so no path holds a
NUL byte. -/
def CStrings (S : Store) : Prop := ∀ k ∈ keys S, 0 ∉ k

instance (S : Store) : Decidable (CStrings S) := by
  unfold CStrings; infer_instance

/-- The staging map `backups` of `backup` at the point of the merge. -/
def stagingMap (o S : Store) : Store :=
  let backups0 : Store := emplace [] (str ".backup") dirEntry
  let o1 := rm o (str ".backup") true
  let S1 := rm S (str ".backup") true
  let w := walkFuel (o1.length + S1.length) o1 S1 backups0 []
  if w.2 ≠ [] then emplace w.1 (str ".backup/.rmlist") (rmListEntry w.2) else w.1

/-- C2: when at least one of the four paths of `UNSUPPORT_LIST` exists, `test` returns
exactly 2 (`UNSUPPORTED_CPIO` alone), whatever else the store holds. -/
theorem test_unsupported_alone (S : Store)
    (h : exists_ S (str "sbin/launch_daemonsu.sh") = true ∨ exists_ S (str "sbin/su") = true ∨
      exists_ S (str "init.xposed.rc") = true ∨
      exists_ S (str "boot/sbin/launch_daemonsu.sh") = true) :
    test S = 2 := by
  have hany : UNSUPPORT_LIST.any (fun file => exists_ S file) = true := by
    simp only [UNSUPPORT_LIST, List.any_cons, List.any_nil, Bool.or_false, Bool.or_eq_true]
    tauto
  simp only [test, hany, if_true]
  rfl

theorem test_unsupported_alone_witness :
    test [(str "init.magisk.rc", ⟨0o100644, []⟩), (str "sbin/su", ⟨0o100755, []⟩)] = 2 :=
  test_unsupported_alone _ (Or.inr (Or.inl (by decide)))

/-- C3: when none of the four paths of `UNSUPPORT_LIST` exists, `test` returns `p + 4 * s`
with `p = 1` iff one of the three Magisk markers exists and `s = 1` iff `init.real`
exists; bit 0 is the marker bit, bit 1 is clear and bit 2 is the `init.real` bit. -/
theorem test_classification (S : Store)
    (h1 : exists_ S (str "sbin/launch_daemonsu.sh") = false)
    (h2 : exists_ S (str "sbin/su") = false)
    (h3 : exists_ S (str "init.xposed.rc") = false)
    (h4 : exists_ S (str "boot/sbin/launch_daemonsu.sh") = false) :
    test S =
        (if exists_ S (str ".backup/.magisk") || exists_ S (str "init.magisk.rc") ||
            exists_ S (str "overlay/init.magisk.rc") then 1 else 0) +
        4 * (if exists_ S (str "init.real") then 1 else 0) ∧
      (test S).testBit 0 = (exists_ S (str ".backup/.magisk") || exists_ S (str "init.magisk.rc") ||
            exists_ S (str "overlay/init.magisk.rc")) ∧
      (test S).testBit 1 = false ∧
      (test S).testBit 2 = exists_ S (str "init.real") := by
  have hany : UNSUPPORT_LIST.any (fun file => exists_ S file) = false := by
    simp [UNSUPPORT_LIST, h1, h2, h3, h4]
  have hm : MAGISK_LIST.any (fun file => exists_ S file) =
      (exists_ S (str ".backup/.magisk") || exists_ S (str "init.magisk.rc") ||
            exists_ S (str "overlay/init.magisk.rc")) := by
    simp [MAGISK_LIST, Bool.or_assoc]
  simp only [test, hany, hm]
  cases exists_ S (str ".backup/.magisk") <;> cases exists_ S (str "init.magisk.rc") <;>
    cases exists_ S (str "overlay/init.magisk.rc") <;> cases exists_ S (str "init.real") <;>
    decide

theorem test_classification_witness :
    test [(str "init.magisk.rc", ⟨0o100644, []⟩), (str "init.real", ⟨0o100755, []⟩)] = 5 :=
  (test_classification [(str "init.magisk.rc", ⟨0o100644, []⟩), (str "init.real", ⟨0o100755, []⟩)]
    (by decide) (by decide) (by decide) (by decide)).1

/-! ## Lookup, keys and erasure -/

theorem find_eq_none_iff (S : Store) (q : Bytes) : find S q = none ↔ q ∉ keys S := by
  induction S with
  | nil => simp [find, keys]
  | cons kv t ih =>
    obtain ⟨k, e⟩ := kv
    by_cases hk : k = q
    · simp [find, keys, hk]
    · have hq : ¬ q = k := fun h => hk h.symm
      simpa [find, keys, hk, hq] using ih

theorem exists_iff_mem_keys (S : Store) (q : Bytes) : exists_ S q = true ↔ q ∈ keys S := by
  rw [exists_, Option.isSome_iff_ne_none, Ne, find_eq_none_iff, not_not]

theorem exists_eq_false_iff (S : Store) (q : Bytes) : exists_ S q = false ↔ q ∉ keys S := by
  rw [← exists_iff_mem_keys, Bool.not_eq_true]

/-! ## The collecting loop of `restore` -/

theorem collect_foldl (S : Store) (c : Collected) :
    S.foldl collectStep c =
      { bk := if str ".backup" ∈ keys S then some (str ".backup") else c.bk
        rl := if str ".backup/.rmlist" ∈ keys S then some (str ".backup/.rmlist") else c.rl
        mg := if str ".backup/.magisk" ∈ keys S then some (str ".backup/.magisk") else c.mg
        backups := c.backups ++ (keys S).filter isOtherBackup } := by
  induction S generalizing c with
  | nil => simp [keys]
  | cons kv t ih =>
    obtain ⟨k, e⟩ := kv
    rw [List.foldl_cons, ih]
    have d1 : str ".backup" ≠ str ".backup/.rmlist" := by decide
    have d2 : str ".backup" ≠ str ".backup/.magisk" := by decide
    have d3 : str ".backup/.rmlist" ≠ str ".backup/.magisk" := by decide
    simp only [keys, List.map_cons, List.mem_cons, List.filter_cons]
    by_cases h1 : k = str ".backup"
    · subst h1
      have : isOtherBackup (str ".backup") = false := by decide
      simp only [collectStep, if_true, this, d1.symm, d2.symm, false_or, true_or]
      simp
    by_cases h2 : k = str ".backup/.rmlist"
    · subst h2
      have : isOtherBackup (str ".backup/.rmlist") = false := by decide
      simp only [collectStep, if_true, if_false, this, d1, d3.symm, h1, false_or, true_or]
      simp
    by_cases h3 : k = str ".backup/.magisk"
    · subst h3
      have : isOtherBackup (str ".backup/.magisk") = false := by decide
      simp only [collectStep, if_true, if_false, this, d2, d3, h1, h2, false_or, true_or]
      simp
    have e1 : ¬ str ".backup" = k := fun h => h1 h.symm
    have e2 : ¬ str ".backup/.rmlist" = k := fun h => h2 h.symm
    have e3 : ¬ str ".backup/.magisk" = k := fun h => h3 h.symm
    by_cases h4 : str_starts k (str ".backup/") = true
    · have : isOtherBackup k = true := by simp [isOtherBackup, h1, h2, h3, h4]
      simp only [collectStep, h1, h2, h3, h4, if_false, if_true, this, e1, e2, e3, false_or]
      simp
    · have : isOtherBackup k = false := by simp [isOtherBackup, h4]
      simp only [collectStep, h1, h2, h3, h4, if_false, this, e1, e2, e3, false_or]
      simp

theorem collect_eq (S : Store) :
    collect S =
      { bk := if str ".backup" ∈ keys S then some (str ".backup") else none
        rl := if str ".backup/.rmlist" ∈ keys S then some (str ".backup/.rmlist") else none
        mg := if str ".backup/.magisk" ∈ keys S then some (str ".backup/.magisk") else none
        backups := (keys S).filter isOtherBackup } := by
  rw [collect, collect_foldl]; simp

/-- C4: a store that contains `.backup` and `.backup/.magisk`, does not contain
`.backup/.rmlist` and has no other path starting with `.backup/` is emptied by
`restore`, whatever other entries it held. -/
theorem restore_degenerate (S : Store)
    (hbk : exists_ S (str ".backup") = true)
    (hmg : exists_ S (str ".backup/.magisk") = true)
    (hrl : exists_ S (str ".backup/.rmlist") = false)
    (hother : ∀ k ∈ keys S, str_starts k (str ".backup/") = true →
      k = str ".backup/.magisk" ∨ k = str ".backup/.rmlist") :
    restore S = some [] := by
  rw [exists_iff_mem_keys] at hbk hmg
  rw [exists_eq_false_iff] at hrl
  have hb : (keys S).filter isOtherBackup = [] := by
    rw [List.filter_eq_nil_iff]
    intro k hk hko
    simp only [isOtherBackup, Bool.and_eq_true, bne_iff_ne, ne_eq] at hko
    rcases hother k hk hko.2 with h | h
    · exact hko.1.2 h
    · exact hko.1.1.2 h
  simp [restore, collect_eq, hbk, hmg, hrl, hb]

theorem restore_degenerate_witness :
    restore [(str ".backup", ⟨0o040000, []⟩), (str ".backup/.magisk", ⟨0o100644, str "x"⟩),
      (str "foo", ⟨0o100644, str "F"⟩)] = some [] :=
  restore_degenerate _ (by decide) (by decide) (by decide) (by decide)

/-! ## `patch` -/

theorem patchEntry_fst (P : Patcher) (kv kfe : Bool) (cur r : Bytes × Entry)
    (h : patchEntry P kv kfe cur = some r) : r.1 = cur.1 := by
  unfold patchEntry at h
  simp only at h
  split at h
  · exact absurd h (by simp)
  · simp only [Option.some.injEq] at h
    rw [← h]

theorem patchEntry_verity_key (P : Patcher) (kfe : Bool) (e : Entry) :
    patchEntry P false kfe (str "verity_key", e) = none := by
  have h1 : str_contains (str "verity_key") (str "fstab") = false := by decide
  simp [patchEntry, h1]

theorem mem_keys_filterMap_patchEntry (P : Patcher) (kfe : Bool) (S : Store) :
    str "verity_key" ∉ keys (S.filterMap (patchEntry P false kfe)) := by
  intro hmem
  simp only [keys, List.mem_map, List.mem_filterMap] at hmem
  obtain ⟨r, ⟨cur, _, hcur⟩, hr⟩ := hmem
  have hk := patchEntry_fst P false kfe cur r hcur
  obtain ⟨k, e⟩ := cur
  simp only at hk
  rw [hr] at hk
  subst hk
  rw [patchEntry_verity_key] at hcur
  exact absurd hcur (by simp)

/-- C8: when `KEEPVERITY` is unset or is any string other than exactly `true`, the store
after `patch` has no entry with path `verity_key`, whatever the entry's mode and
whatever `KEEPFORCEENCRYPT` is. -/
theorem patch_removes_verity_key (P : Patcher) (env : Env) (S : Store)
    (h : env (str "KEEPVERITY") ≠ some (str "true")) :
    exists_ (patch P env S) (str "verity_key") = false := by
  have hkv : check_env env (str "KEEPVERITY") = false := by
    unfold check_env
    cases hv : env (str "KEEPVERITY") with
    | none => rfl
    | some val =>
      rw [hv] at h
      simp only [beq_eq_false_iff_ne, ne_eq]
      intro hval
      exact h (by rw [hval])
  rw [exists_eq_false_iff]
  simp only [patch, hkv]
  exact mem_keys_filterMap_patchEntry P _ S

theorem patch_removes_verity_key_witness :
    envUpper (str "KEEPVERITY") ≠ some (str "true") ∧
      exists_ (patch ⟨id, id⟩ envUpper
        [(str "fstab.qcom", ⟨0o100644, str "x"⟩), (str "verity_key", ⟨0o040755, []⟩)])
        (str "verity_key") = false :=
  ⟨by decide, patch_removes_verity_key _ _ _ (by decide)⟩

/-! ## The command loop -/

theorem runCommand_rejected (w : World) (S : Store) (cmdv : List Bytes) (h : rejected cmdv) :
    runCommand w S cmdv = Step.ret 1 := by
  obtain ⟨hne, h⟩ := h
  cases cmdv with
  | nil => exact absurd rfl hne
  | cons v args =>
    unfold runCommand
    simp only [verbs, List.mem_cons, List.mem_singleton, List.not_mem_nil, or_false, not_or,
      List.getD_cons_zero, List.length_cons] at h ⊢
    have hlen : args.length + 1 ≠ 0 := by omega
    rcases h with h | ⟨h | h, hn⟩ | ⟨h, hn⟩ | ⟨h | h | h, hn⟩ | ⟨h, hn⟩
    · obtain ⟨h1, h2, h3, h4, h5, h6, h7, h8, h9, h10, h11⟩ := h
      simp only [hlen, h1, h2, h3, h4, h5, h6, h7, h8, h9, h10, h11, if_false, and_false]
    all_goals
      subst h
      simp +decide only [hlen, hn, if_false, false_and, and_true, and_false, ge_iff_le]
      try (rw [if_neg (by omega)])

theorem runCommand_test (w : World) (S : Store) (cmdv : List Bytes)
    (h : cmdv.getD 0 [] = str "test") : runCommand w S cmdv = Step.exit (test S) := by
  cases cmdv with
  | nil => exact absurd h (by decide)
  | cons v args =>
    simp only [List.getD_cons_zero] at h
    subst h
    unfold runCommand
    simp +decide

theorem runCommand_restore (w : World) (S : Store) (cmdv : List Bytes)
    (h : cmdv.getD 0 [] = str "restore") :
    runCommand w S cmdv =
      match restore S with
      | none => Step.undefined
      | some S' => Step.next S' := by
  cases cmdv with
  | nil => exact absurd h (by decide)
  | cons v args =>
    simp only [List.getD_cons_zero] at h
    subst h
    unfold runCommand
    simp +decide

theorem runCommand_patch (w : World) (S : Store) (cmdv : List Bytes)
    (h : cmdv.getD 0 [] = str "patch") :
    runCommand w S cmdv = Step.next (patch w.patcher w.env S) := by
  cases cmdv with
  | nil => exact absurd h (by decide)
  | cons v args =>
    simp only [List.getD_cons_zero] at h
    subst h
    unfold runCommand
    simp +decide

theorem runCommand_rm (w : World) (S : Store) (cmdv : List Bytes)
    (h : cmdv.getD 0 [] = str "rm") (hn : cmdv.length ≥ 2) :
    runCommand w S cmdv =
      Step.next (rm S
        (cmdv.getD (1 + (decide (cmdv.length > 2) && cmdv.getD 1 [] == str "-r").toNat) [])
        (decide (cmdv.length > 2) && cmdv.getD 1 [] == str "-r")) := by
  cases cmdv with
  | nil => exact absurd h (by decide)
  | cons v args =>
    simp only [List.getD_cons_zero] at h
    subst h
    have hn' : 1 ≤ args.length := by simpa using hn
    unfold runCommand
    simp +decide [hn']

theorem runCommand_extract (w : World) (S : Store) (cmdv : List Bytes)
    (h : cmdv.getD 0 [] = str "extract") :
    runCommand w S cmdv =
      if cmdv.length = 3 then
        Step.ret (if w.extract S (cmdv.getD 1 []) (cmdv.getD 2 []) then 0 else 1)
      else Step.ret 0 := by
  cases cmdv with
  | nil => exact absurd h (by decide)
  | cons v args =>
    simp only [List.getD_cons_zero] at h
    subst h
    unfold runCommand
    simp +decide

/-- C10 as stated fails: commands whose token count is not the one tabulated for their
verb are executed all the same. `test x` exits with the mask of `test` (0 on the empty
store) and the next command is never seen; `restore x` and `patch x` run and the store
is dumped; `extract x` returns 0; `rm a b c d` removes `a` and the store is dumped. None
of them makes the function return 1. -/
theorem cpio_commands_test_ignores_arity :
    splitCommand (str "test x") = [str "test", str "x"] ∧
      runCommands idleWorld [] [str "test x", str "bogus"] = Outcome.exited 0 ∧
      runCommands idleWorld [] [str "restore x"] = Outcome.returned 0 (some []) ∧
      runCommands idleWorld [] [str "patch x"] = Outcome.returned 0 (some []) ∧
      runCommands idleWorld [] [str "extract x"] = Outcome.returned 0 none ∧
      splitCommand (str "rm a b c d") = [str "rm", str "a", str "b", str "c", str "d"] ∧
      runCommands idleWorld [(str "a", ⟨0o100644, []⟩)] [str "rm a b c d"] =
        Outcome.returned 0 (some []) := by
  decide

/-- C10, amended: a command whose first token is not a recognized verb, or whose verb is
`exists` or `backup` with a token count other than 2, `rm` with fewer than 2 tokens,
`mv`, `mkdir` or `ln` with a count other than 3, or `add` with a count other than 4,
makes the loop return 1 at that command, without executing it or the commands after it
and without dumping the store. The verbs `test`, `restore`, `patch` and `extract` are
run with any token count, and `rm` with any count from 2: `test` exits with its mask,
`restore` and `patch` go on with the restored or patched store, `extract` returns the
status of the extraction (with 3 tokens) or 0, and `rm` goes on with the entry
removed. -/
theorem cpio_commands_rejects (w : World) (S : Store) (incpio arg : Bytes)
    (rest : List Bytes) :
    (rejected (splitCommand arg) →
      runCommand w S (splitCommand arg) = Step.ret 1 ∧
        runCommands w S (arg :: rest) = Outcome.returned 1 none ∧
        cpio_commands w incpio (arg :: rest) = Outcome.returned 1 none) ∧
    ((splitCommand arg).getD 0 [] = str "test" →
      runCommand w S (splitCommand arg) = Step.exit (test S) ∧
        runCommands w S (arg :: rest) = Outcome.exited (test S)) ∧
    ((splitCommand arg).getD 0 [] = str "restore" →
      ∀ S', restore S = some S' →
        runCommand w S (splitCommand arg) = Step.next S' ∧
          runCommands w S (arg :: rest) = runCommands w S' rest) ∧
    ((splitCommand arg).getD 0 [] = str "patch" →
      runCommand w S (splitCommand arg) = Step.next (patch w.patcher w.env S) ∧
        runCommands w S (arg :: rest) = runCommands w (patch w.patcher w.env S) rest) ∧
    ((splitCommand arg).getD 0 [] = str "extract" →
      runCommand w S (splitCommand arg) =
          (if (splitCommand arg).length = 3 then
            Step.ret (if w.extract S ((splitCommand arg).getD 1 [])
              ((splitCommand arg).getD 2 []) then 0 else 1)
          else Step.ret 0) ∧
        ((splitCommand arg).length ≠ 3 →
          runCommands w S (arg :: rest) = Outcome.returned 0 none)) ∧
    ((splitCommand arg).getD 0 [] = str "rm" → (splitCommand arg).length ≥ 2 →
      runCommand w S (splitCommand arg) =
          Step.next (rm S
            ((splitCommand arg).getD
              (1 + (decide ((splitCommand arg).length > 2) &&
                (splitCommand arg).getD 1 [] == str "-r").toNat) [])
            (decide ((splitCommand arg).length > 2) &&
              (splitCommand arg).getD 1 [] == str "-r")) ∧
        runCommands w S (arg :: rest) =
          runCommands w (rm S
            ((splitCommand arg).getD
              (1 + (decide ((splitCommand arg).length > 2) &&
                (splitCommand arg).getD 1 [] == str "-r").toNat) [])
            (decide ((splitCommand arg).length > 2) &&
              (splitCommand arg).getD 1 [] == str "-r")) rest) := by
  refine ⟨fun h => ?_, fun h => ?_, fun h S' hS' => ?_, fun h => ?_, fun h => ?_,
    fun h hn => ?_⟩
  · have h1 := runCommand_rejected w S _ h
    have h2 := runCommand_rejected w ((w.load_cpio incpio).getD []) _ h
    refine ⟨h1, ?_, ?_⟩
    · simp only [runCommands, h1]
    · simp only [cpio_commands, runCommands, h2]
  · have h1 := runCommand_test w S _ h
    exact ⟨h1, by simp only [runCommands, h1]⟩
  · have h1 := runCommand_restore w S _ h
    rw [hS'] at h1
    exact ⟨h1, by simp only [runCommands, h1]⟩
  · have h1 := runCommand_patch w S _ h
    exact ⟨h1, by simp only [runCommands, h1]⟩
  · have h1 := runCommand_extract w S _ h
    refine ⟨h1, fun hn => ?_⟩
    rw [if_neg hn] at h1
    simp only [runCommands, h1]
  · have h1 := runCommand_rm w S _ h hn
    exact ⟨h1, by simp only [runCommands, h1]⟩

theorem cpio_commands_rejects_witness :
    rejected (splitCommand (str "mv a")) ∧
      runCommands idleWorld [(str "a", ⟨0o100644, []⟩)] [str "mv a", str "rm a"] =
        Outcome.returned 1 none ∧
      runCommands idleWorld [(str "a", ⟨0o100644, []⟩)] [str "rm a b c d", str "mv a"] =
        runCommands idleWorld [] [str "mv a"] :=
  ⟨by decide,
    ((cpio_commands_rejects idleWorld _ [] (str "mv a") [str "rm a"]).1 (by decide)).2.1,
    ((cpio_commands_rejects idleWorld [(str "a", ⟨0o100644, []⟩)] [] (str "rm a b c d")
      [str "mv a"]).2.2.2.2.2 (by decide) (by decide)).2⟩

/-! ## The order of paths -/

theorem strCompare_self (a : Bytes) : strCompare a a = 0 := by
  induction a with
  | nil => rfl
  | cons x xs ih => simp [strCompare, ih]

theorem strCompare_eq_zero {a b : Bytes} (h : strCompare a b = 0) : a = b := by
  induction a generalizing b with
  | nil => cases b with
    | nil => rfl
    | cons y ys => simp [strCompare] at h
  | cons x xs ih => cases b with
    | nil => simp [strCompare] at h
    | cons y ys =>
      simp only [strCompare] at h
      split_ifs at h with h1 h2
      · omega
      · have hxy : x = y := by omega
        rw [hxy, ih h]

theorem strCompare_swap (a b : Bytes) : strCompare b a = - strCompare a b := by
  induction a generalizing b with
  | nil => cases b <;> simp [strCompare]
  | cons x xs ih => cases b with
    | nil => simp [strCompare]
    | cons y ys =>
      simp only [strCompare]
      split_ifs <;> first | omega | exact ih ys

theorem strCompare_trans {a b c : Bytes} (h1 : strCompare a b < 0) (h2 : strCompare b c < 0) :
    strCompare a c < 0 := by
  induction a generalizing b c with
  | nil => cases c with
    | nil => cases b <;> simp [strCompare] at h1 h2
    | cons z zs => simp [strCompare]
  | cons x xs ih => cases b with
    | nil => simp [strCompare] at h1
    | cons y ys => cases c with
      | nil => simp [strCompare] at h2
      | cons z zs =>
        simp only [strCompare] at h1 h2 ⊢
        split_ifs at h1 h2 ⊢ <;> first | omega | exact ih h1 h2

theorem strCompare_lt_ne {a b : Bytes} (h : strCompare a b < 0) : a ≠ b := by
  intro hab; rw [hab, strCompare_self] at h; omega

theorem strCompare_total {a b : Bytes} (h1 : ¬ strCompare a b < 0) (h2 : a ≠ b) :
    strCompare b a < 0 := by
  have h3 : strCompare a b ≠ 0 := fun h => h2 (strCompare_eq_zero h)
  rw [strCompare_swap]; omega

/-! ## Well-formed stores -/

theorem WF_cons {kv : Bytes × Entry} {t : Store} :
    WF (kv :: t) ↔ (∀ x ∈ t, strCompare kv.1 x.1 < 0) ∧ WF t := List.pairwise_cons

theorem WF_nil : WF [] := List.Pairwise.nil

theorem WF_filter (p : Bytes × Entry → Bool) {S : Store} (h : WF S) : WF (S.filter p) :=
  List.Pairwise.filter p h

theorem mem_keys_of_mem {S : Store} {k : Bytes} {e : Entry} (h : (k, e) ∈ S) : k ∈ keys S :=
  List.mem_map.mpr ⟨(k, e), h, rfl⟩

theorem mem_of_find {S : Store} {k : Bytes} {e : Entry} (h : find S k = some e) :
    (k, e) ∈ S := by
  induction S with
  | nil => simp [find] at h
  | cons kv t ih =>
    obtain ⟨k', e'⟩ := kv
    simp only [find] at h
    split_ifs at h with hk
    · simp only [Option.some.injEq] at h
      rw [hk, h]; exact List.mem_cons_self _ _
    · exact List.mem_cons_of_mem _ (ih h)

theorem find_of_mem {S : Store} (hS : WF S) {k : Bytes} {e : Entry} (h : (k, e) ∈ S) :
    find S k = some e := by
  induction S with
  | nil => simp at h
  | cons kv t ih =>
    obtain ⟨k', e'⟩ := kv
    rw [WF_cons] at hS
    rcases List.mem_cons.mp h with h | h
    · simp only [Prod.mk.injEq] at h
      simp [find, h.1, h.2]
    · have hlt := hS.1 _ h
      have hne : k' ≠ k := strCompare_lt_ne hlt
      simp only [find, hne, if_false]
      exact ih hS.2 h

theorem find_filter_key (p : Bytes → Bool) (S : Store) (q : Bytes) :
    find (S.filter (fun kv => p kv.1)) q = if p q = true then find S q else none := by
  induction S with
  | nil => simp [find]
  | cons kv t ih =>
    obtain ⟨k, e⟩ := kv
    by_cases hp : p k = true
    · rw [List.filter_cons_of_pos (by simpa using hp)]
      by_cases hk : k = q
      · subst hk; simp [find, hp]
      · simp only [find, hk, if_false]; exact ih
    · rw [List.filter_cons_of_neg (by simpa using hp)]
      by_cases hk : k = q
      · subst hk; rw [ih]; simp [hp]
      · simp only [find, hk, if_false]; exact ih

theorem find_erase (S : Store) (k q : Bytes) :
    find (erase S k) q = if q = k then none else find S q := by
  rw [erase, find_filter_key (fun x => x != k)]
  by_cases h : q = k <;> simp [h]

theorem erase_of_not_mem {S : Store} {k : Bytes} (h : k ∉ keys S) : erase S k = S := by
  rw [erase, List.filter_eq_self]
  intro kv hkv
  simp only [bne_iff_ne, ne_eq]
  intro hk
  exact h (hk ▸ List.mem_map.mpr ⟨kv, hkv, rfl⟩)

theorem rm_backup_eq (S : Store) :
    rm S (str ".backup") true = S.filter (fun kv => !isBackupPath kv.1) := rfl

theorem find_rm_backup (S : Store) (q : Bytes) :
    find (rm S (str ".backup") true) q = if isBackupPath q = true then none else find S q := by
  rw [rm_backup_eq, find_filter_key (fun x => !isBackupPath x)]
  cases isBackupPath q <;> simp

theorem WF_erase {S : Store} (h : WF S) (k : Bytes) : WF (erase S k) := WF_filter _ h

theorem WF_rm {S : Store} (h : WF S) (name : Bytes) (r : Bool) : WF (rm S name r) := by
  unfold rm; split
  · exact WF_filter _ h
  · exact WF_erase h name

theorem find_insert (S : Store) (k : Bytes) (e : Entry) (q : Bytes) :
    find (insert S k e) q = if q = k then some e else find S q := by
  induction S with
  | nil =>
    by_cases h : q = k
    · simp [insert, find, h]
    · have h' : ¬ k = q := fun h2 => h h2.symm
      simp [insert, find, h, h']
  | cons kv t ih =>
    obtain ⟨k', e'⟩ := kv
    simp only [insert]
    by_cases hq : q = k
    · subst hq
      simp only [if_true] at ih ⊢
      by_cases h1 : strCompare q k' < 0
      · rw [if_pos h1]; simp [find]
      · rw [if_neg h1]
        by_cases h2 : q = k'
        · rw [if_pos h2]; simp [find]
        · have h2' : ¬ k' = q := fun h => h2 h.symm
          rw [if_neg h2]; simp [find, h2', ih]
    · have hq' : ¬ k = q := fun h => hq h.symm
      simp only [hq, if_false] at ih ⊢
      by_cases h1 : strCompare k k' < 0
      · rw [if_pos h1]; simp [find, hq']
      · rw [if_neg h1]
        by_cases h2 : k = k'
        · rw [if_pos h2]; subst h2
          simp [find, hq']
        · rw [if_neg h2]
          by_cases h4 : k' = q
          · simp [find, h4]
          · simp [find, h4, ih]

theorem mem_insert {S : Store} {k : Bytes} {e : Entry} {x : Bytes × Entry}
    (h : x ∈ insert S k e) : x = (k, e) ∨ x ∈ S := by
  induction S with
  | nil => simpa [insert] using h
  | cons kv t ih =>
    obtain ⟨k', e'⟩ := kv
    simp only [insert] at h
    split_ifs at h with h1 h2
    · simpa using h
    · rcases List.mem_cons.mp h with h | h
      · exact Or.inl h
      · exact Or.inr (List.mem_cons_of_mem _ h)
    · rcases List.mem_cons.mp h with h | h
      · exact Or.inr (h ▸ List.mem_cons_self _ _)
      · rcases ih h with h | h
        · exact Or.inl h
        · exact Or.inr (List.mem_cons_of_mem _ h)

theorem WF_insert {S : Store} (hS : WF S) (k : Bytes) (e : Entry) : WF (insert S k e) := by
  induction S with
  | nil => simp [insert, WF]
  | cons kv t ih =>
    obtain ⟨k', e'⟩ := kv
    have hS' := WF_cons.mp hS
    simp only [insert]
    split_ifs with h1 h2
    · refine WF_cons.mpr ⟨?_, hS⟩
      intro x hx
      rcases List.mem_cons.mp hx with hx | hx
      · rw [hx]; exact h1
      · exact strCompare_trans h1 (hS'.1 x hx)
    · subst h2
      exact WF_cons.mpr ⟨hS'.1, hS'.2⟩
    · refine WF_cons.mpr ⟨?_, ih hS'.2⟩
      intro x hx
      rcases mem_insert hx with hx | hx
      · rw [hx]; exact strCompare_total h1 h2
      · exact hS'.1 x hx

theorem find_emplace (S : Store) (k : Bytes) (e : Entry) (q : Bytes) :
    find (emplace S k e) q =
      if q = k then (match find S k with | some e' => some e' | none => some e)
      else find S q := by
  unfold emplace
  cases hf : find S k with
  | none =>
    simp only [Option.isSome_none, Bool.false_eq_true, if_false]
    rw [find_insert]
  | some e' =>
    simp only [Option.isSome_some, if_true]
    by_cases h : q = k
    · simp [h, hf]
    · simp [h]

theorem WF_emplace {S : Store} (hS : WF S) (k : Bytes) (e : Entry) : WF (emplace S k e) := by
  unfold emplace; split
  · exact hS
  · exact WF_insert hS k e

theorem not_mem_keys_of_WF_cons {k : Bytes} {e : Entry} {t : Store} (h : WF ((k, e) :: t)) :
    k ∉ keys t := by
  intro hk
  obtain ⟨x, hx, hxk⟩ := List.mem_map.mp hk
  have := (WF_cons.mp h).1 x hx
  simp only at this
  rw [hxk, strCompare_self] at this
  omega

/-- Two well-formed stores with the same lookups are the same store. -/
theorem store_ext {S T : Store} (hS : WF S) (hT : WF T) (h : ∀ q, find S q = find T q) :
    S = T := by
  induction S generalizing T with
  | nil =>
    cases T with
    | nil => rfl
    | cons kv t =>
      have := h kv.1
      obtain ⟨k, e⟩ := kv
      simp [find] at this
  | cons kv s ih =>
    obtain ⟨k, e⟩ := kv
    cases T with
    | nil =>
      have := h k
      simp [find] at this
    | cons kv' t =>
      obtain ⟨k', e'⟩ := kv'
      have hS' := WF_cons.mp hS
      have hT' := WF_cons.mp hT
      have hk : k = k' := by
        by_contra hne
        have h1 : find ((k', e') :: t) k = some e := by rw [← h k]; simp [find]
        have h2 : find ((k, e) :: s) k' = some e' := by rw [h k']; simp [find]
        have hne' : ¬ k' = k := fun h => hne h.symm
        simp only [find, hne', if_false] at h1
        simp only [find, hne, if_false] at h2
        have l1 := hT'.1 _ (mem_of_find h1)
        have l2 := hS'.1 _ (mem_of_find h2)
        have := strCompare_trans l1 l2
        rw [strCompare_self] at this
        omega
      subst hk
      have he : e = e' := by
        have := h k
        simpa [find] using this
      subst he
      congr 1
      apply ih hS'.2 hT'.2
      intro q
      by_cases hq : k = q
      · subst hq
        rw [(find_eq_none_iff s k).mpr (not_mem_keys_of_WF_cons hS),
          (find_eq_none_iff t k).mpr (not_mem_keys_of_WF_cons hT)]
      · have := h q
        simpa [find, hq] using this

/-! ## The merge walk of `backup` -/

theorem find_cons_ne {k q : Bytes} (e : Entry) (t : Store) (h : k ≠ q) :
    find ((k, e) :: t) q = find t q := by
  simp [find, h]

theorem find_none_of_lt {S : Store} {q : Bytes} (h : ∀ x ∈ S, strCompare q x.1 < 0) :
    find S q = none := by
  rw [find_eq_none_iff]
  intro hq
  obtain ⟨x, hx, hxq⟩ := List.mem_map.mp hq
  have := h x hx
  rw [hxq, strCompare_self] at this
  omega

theorem walkFuel_eq (fuel : Nat) (L R B : Store) (rm_list : Bytes) (hL : WF L) (hR : WF R)
    (hfuel : L.length + R.length ≤ fuel) :
    walkFuel fuel L R B rm_list =
      (stage B (L.filter (lostOrChanged R)),
       rm_list ++ rmListOf (keys (R.filter (isNew L)))) := by
  induction fuel generalizing L R B rm_list with
  | zero =>
    have h1 : L = [] := List.length_eq_zero.mp (by omega)
    have h2 : R = [] := List.length_eq_zero.mp (by omega)
    subst h1; subst h2
    simp [walkFuel, stage, rmListOf, keys]
  | succ n ih =>
    cases L with
    | nil =>
      cases R with
      | nil => simp [walkFuel, stage, rmListOf, keys]
      | cons r rs =>
        have hR' := WF_cons.mp hR
        simp only [walkFuel]
        rw [ih [] rs B _ WF_nil hR'.2 (by simp at hfuel ⊢; omega)]
        simp [isNew, find, rmListOf, keys, stage]
    | cons l ls =>
      have hL' := WF_cons.mp hL
      cases R with
      | nil =>
        simp only [walkFuel]
        rw [ih ls [] _ rm_list hL'.2 WF_nil (by simp at hfuel ⊢; omega)]
        have : lostOrChanged [] l = true := by simp [lostOrChanged, find]
        simp [List.filter_cons, this, stage]
      | cons r rs =>
        have hR' := WF_cons.mp hR
        obtain ⟨lk, le⟩ := l
        obtain ⟨rk, re⟩ := r
        simp only [walkFuel]
        by_cases h1 : strCompare lk rk < 0
        · rw [if_pos h1, ih ls ((rk, re) :: rs) _ rm_list hL'.2 hR
            (by simp at hfuel ⊢; omega)]
          have hlt : ∀ x ∈ (rk, re) :: rs, strCompare lk x.1 < 0 := by
            intro x hx
            rcases List.mem_cons.mp hx with hx | hx
            · rw [hx]; exact h1
            · exact strCompare_trans h1 (hR'.1 x hx)
          have hl : lostOrChanged ((rk, re) :: rs) (lk, le) = true := by
            simp [lostOrChanged, find_none_of_lt hlt]
          have hnew : ((rk, re) :: rs).filter (isNew ((lk, le) :: ls)) =
              ((rk, re) :: rs).filter (isNew ls) := by
            apply List.filter_congr
            intro x hx
            simp only [isNew]
            rw [find_cons_ne _ _ (strCompare_lt_ne (hlt x hx))]
          have hL2 : ((lk, le) :: ls).filter (lostOrChanged ((rk, re) :: rs)) =
              (lk, le) :: ls.filter (lostOrChanged ((rk, re) :: rs)) := List.filter_cons_of_pos hl
          rw [hnew, hL2]
          simp [stage]
        · rw [if_neg h1]
          by_cases h2 : strCompare lk rk = 0
          · rw [if_pos h2]
            have hk : lk = rk := strCompare_eq_zero h2
            subst hk
            have hls : ls.filter (lostOrChanged ((lk, re) :: rs)) =
                ls.filter (lostOrChanged rs) := by
              apply List.filter_congr
              intro x hx
              simp only [lostOrChanged]
              rw [find_cons_ne _ _ (strCompare_lt_ne (hL'.1 x hx))]
            have hrs : rs.filter (isNew ((lk, le) :: ls)) = rs.filter (isNew ls) := by
              apply List.filter_congr
              intro x hx
              simp only [isNew]
              rw [find_cons_ne _ _ (strCompare_lt_ne (hR'.1 x hx))]
            have hr : isNew ((lk, le) :: ls) (lk, re) = false := by simp [isNew, find]
            have hR2 : ((lk, re) :: rs).filter (isNew ((lk, le) :: ls)) = rs.filter (isNew ls) := by
              rw [List.filter_cons_of_neg (by simp [hr]), hrs]
            rw [hR2]
            by_cases h3 : le.data = re.data
            · have hl : lostOrChanged ((lk, re) :: rs) (lk, le) = false := by
                simp [lostOrChanged, find, h3]
              have hL2 : ((lk, le) :: ls).filter (lostOrChanged ((lk, re) :: rs)) =
                  ls.filter (lostOrChanged rs) := by
                rw [List.filter_cons_of_neg (by simp [hl]), hls]
              rw [if_neg (by simpa using h3),
                ih ls rs _ rm_list hL'.2 hR'.2 (by simp at hfuel ⊢; omega), hL2]
            · have hl : lostOrChanged ((lk, re) :: rs) (lk, le) = true := by
                simp [lostOrChanged, find, h3]
              have hL2 : ((lk, le) :: ls).filter (lostOrChanged ((lk, re) :: rs)) =
                  (lk, le) :: ls.filter (lostOrChanged rs) := by
                rw [List.filter_cons_of_pos hl, hls]
              rw [if_pos (by simpa using h3),
                ih ls rs _ rm_list hL'.2 hR'.2 (by simp at hfuel ⊢; omega), hL2]
              simp [stage]
          · rw [if_neg h2]
            have h3 : strCompare rk lk < 0 :=
              strCompare_total h1 (fun h => h2 (h ▸ strCompare_self lk))
            have hlt : ∀ x ∈ (lk, le) :: ls, strCompare rk x.1 < 0 := by
              intro x hx
              rcases List.mem_cons.mp hx with hx | hx
              · rw [hx]; exact h3
              · exact strCompare_trans h3 (hL'.1 x hx)
            have hr : isNew ((lk, le) :: ls) (rk, re) = true := by
              simp [isNew, find_none_of_lt hlt]
            have hls : ((lk, le) :: ls).filter (lostOrChanged ((rk, re) :: rs)) =
                ((lk, le) :: ls).filter (lostOrChanged rs) := by
              apply List.filter_congr
              intro x hx
              simp only [lostOrChanged]
              rw [find_cons_ne _ _ (strCompare_lt_ne (hlt x hx))]
            have hR2 : ((rk, re) :: rs).filter (isNew ((lk, le) :: ls)) =
                (rk, re) :: rs.filter (isNew ((lk, le) :: ls)) := List.filter_cons_of_pos hr
            rw [ih ((lk, le) :: ls) rs B _ hL hR'.2 (by simp at hfuel ⊢; omega), hR2, hls]
            simp [keys, rmListOf]

/-! ## What `backup` stages -/

theorem backup_eq (o S : Store) (ho : WF o) (hS : WF S) :
    backup o S =
      if (staged o S).length > 1 then merge (rm S (str ".backup") true) (staged o S)
      else rm S (str ".backup") true := by
  unfold backup
  simp only
  rw [walkFuel_eq _ _ _ _ _ (WF_rm ho _ _) (WF_rm hS _ _) (le_refl _)]
  simp only [List.nil_append]
  rfl

theorem find_emplace_or (S : Store) (k : Bytes) (e : Entry) (q : Bytes) :
    find (emplace S k e) q = (find S q).or (if q = k then some e else none) := by
  rw [find_emplace]
  by_cases h : q = k
  · subst h
    cases find S q <;> simp
  · simp [h]

theorem find_stage (B l : Store) (q : Bytes) :
    find (stage B l) q = (find B q).or (find (prefixed l) q) := by
  induction l generalizing B with
  | nil => simp [stage, prefixed, find]
  | cons x t ih =>
    have hstep : stage B (x :: t) = stage (emplace B (str ".backup/" ++ x.1) x.2) t := rfl
    rw [hstep, ih, find_emplace_or, Option.or_assoc]
    congr 1
    simp only [prefixed, List.map_cons, find]
    by_cases h : q = str ".backup/" ++ x.1
    · simp [h]
    · have h' : ¬ str ".backup/" ++ x.1 = q := fun h2 => h h2.symm
      simp [h, h']

theorem WF_stage {B : Store} (hB : WF B) (l : Store) : WF (stage B l) := by
  induction l generalizing B with
  | nil => exact hB
  | cons x t ih => exact ih (WF_emplace hB _ _)

theorem str_starts_append (p q : Bytes) : str_starts (p ++ q) p = true := by
  simp [str_starts]

theorem eq_append_drop_of_starts {q p : Bytes} (h : str_starts q p = true) :
    q = p ++ q.drop p.length := by
  simp only [str_starts, List.isPrefixOf_iff_prefix] at h
  obtain ⟨t, ht⟩ := h
  rw [← ht]; simp

theorem find_prefixed (l : Store) (q : Bytes) :
    find (prefixed l) q =
      if str_starts q (str ".backup/") = true then find l (q.drop 8) else none := by
  induction l with
  | nil => simp [prefixed, find]
  | cons x t ih =>
    obtain ⟨k, e⟩ := x
    simp only [prefixed, List.map_cons, find] at ih ⊢
    by_cases hk : str ".backup/" ++ k = q
    · subst hk
      have h8 : (str ".backup/" ++ k).drop 8 = k := by
        have : (str ".backup/").length = 8 := by decide
        rw [← this]; simp
      simp [str_starts_append, h8]
    · rw [if_neg hk, ih]
      by_cases hs : str_starts q (str ".backup/") = true
      · have hk' : ¬ k = q.drop 8 := by
          intro h
          apply hk
          rw [h]
          exact (eq_append_drop_of_starts hs).symm
        simp [hs, hk']
      · simp [hs]

theorem find_filter_WF {L : Store} (hL : WF L) (f : Bytes × Entry → Bool) (p : Bytes) :
    find (L.filter f) p = (find L p).filter (fun e => f (p, e)) := by
  induction L with
  | nil => simp [find]
  | cons x t ih =>
    obtain ⟨k, e⟩ := x
    have hL' := WF_cons.mp hL
    by_cases hk : k = p
    · subst hk
      have hnone : find t k = none := (find_eq_none_iff t k).mpr (not_mem_keys_of_WF_cons hL)
      by_cases hf : f (k, e) = true
      · rw [List.filter_cons_of_pos hf]
        simp [find, Option.filter, hf]
      · rw [List.filter_cons_of_neg hf, ih hL'.2, hnone]
        simp [find, Option.filter, hf]
    · by_cases hf : f (k, e) = true
      · rw [List.filter_cons_of_pos hf, find_cons_ne _ _ hk, find_cons_ne _ _ hk, ih hL'.2]
      · rw [List.filter_cons_of_neg hf, find_cons_ne _ _ hk, ih hL'.2]

theorem find_merge (S : Store) {B : Store} (hB : WF B) (q : Bytes) :
    find (merge S B) q = (find B q).or (find S q) := by
  induction B generalizing S with
  | nil => simp [merge, find]
  | cons x t ih =>
    obtain ⟨k, e⟩ := x
    have hstep : merge S ((k, e) :: t) = merge (insert S k e) t := rfl
    rw [hstep, ih _ (WF_cons.mp hB).2, find_insert]
    by_cases hk : q = k
    · subst hk
      rw [(find_eq_none_iff t q).mpr (not_mem_keys_of_WF_cons hB)]
      simp [find]
    · have hk' : ¬ k = q := fun h => hk h.symm
      simp [find, hk, hk']

theorem WF_merge {S : Store} (hS : WF S) (B : Store) : WF (merge S B) := by
  induction B generalizing S with
  | nil => exact hS
  | cons x t ih => exact ih (WF_insert hS _ _)

theorem WF_staged (o S : Store) : WF (staged o S) := by
  have h0 : WF (emplace [] (str ".backup") dirEntry) := WF_emplace WF_nil _ _
  unfold staged; split
  · exact WF_emplace (WF_stage h0 _) _ _
  · exact WF_stage h0 _

theorem WF_backup {o S : Store} (ho : WF o) (hS : WF S) : WF (backup o S) := by
  rw [backup_eq o S ho hS]; split
  · exact WF_merge (WF_rm hS _ _) _
  · exact WF_rm hS _ _

theorem find_staged (o S : Store) (q : Bytes) :
    find (staged o S) q =
      (if q = str ".backup" then some dirEntry else none).or
        ((find (prefixed (lost o S)) q).or
          (if rmListOf (added o S) ≠ [] ∧ q = str ".backup/.rmlist"
            then some (rmListEntry (rmListOf (added o S))) else none)) := by
  have h0 : find (emplace [] (str ".backup") dirEntry) q =
      if q = str ".backup" then some dirEntry else none := by
    rw [find_emplace]; simp [find]
  unfold staged
  by_cases hr : rmListOf (added o S) ≠ []
  · rw [if_pos hr, find_emplace_or, find_stage, h0, Option.or_assoc]
    simp [hr]
  · rw [if_neg hr, find_stage, h0]
    simp [hr]

theorem length_gt_one_of_find (B : Store) (k1 k2 : Bytes) (h1 : (find B k1).isSome)
    (h2 : (find B k2).isSome) (hne : k1 ≠ k2) : B.length > 1 := by
  match B, h1, h2 with
  | [], h1, _ => simp [find] at h1
  | [(k, e)], h1, h2 =>
    simp only [find] at h1 h2
    split_ifs at h1 h2 with a b
    · exact absurd (a.symm.trans b) hne
    all_goals simp at h1 h2
  | _ :: _ :: _, _, _ => simp

theorem find_rm_backup_of_not {S : Store} {q : Bytes} (h : isBackupPath q = false) :
    find (rm S (str ".backup") true) q = find S q := by
  rw [find_rm_backup, h]; simp

theorem find_rm_backup_of_backup {S : Store} {q : Bytes} (h : isBackupPath q = true) :
    find (rm S (str ".backup") true) q = none := by
  rw [find_rm_backup, h]; simp

theorem isBackupPath_prefixed (p : Bytes) : isBackupPath (str ".backup/" ++ p) = true := by
  simp [isBackupPath, str_starts_append]

theorem prefixed_ne_backup (p : Bytes) : str ".backup/" ++ p ≠ str ".backup" := by
  intro h
  have := congrArg List.length h
  have h8 : (str ".backup/").length = 8 := by decide
  have h7 : (str ".backup").length = 7 := by decide
  rw [List.length_append, h8, h7] at this
  omega

theorem drop_prefixed (p : Bytes) : (str ".backup/" ++ p).drop 8 = p := by
  have : (str ".backup/").length = 8 := by decide
  rw [← this]; simp

theorem find_lost (o S : Store) (ho : WF o) (p : Bytes) :
    find (lost o S) p =
      (find (rm o (str ".backup") true) p).filter
        (fun e => lostOrChanged (rm S (str ".backup") true) (p, e)) := by
  rw [lost, find_filter_WF (WF_rm ho _ _)]

theorem find_staged_prefixed (o S : Store) (p : Bytes) (hp : p ≠ str ".rmlist") :
    find (staged o S) (str ".backup/" ++ p) = find (lost o S) p := by
  have hne : str ".backup/" ++ p ≠ str ".backup/.rmlist" := by
    intro h
    apply hp
    have := congrArg (List.drop 8) h
    rw [drop_prefixed] at this
    rw [this]; decide
  rw [find_staged, if_neg (prefixed_ne_backup p), Option.none_or, find_prefixed,
    str_starts_append, if_pos rfl, drop_prefixed, if_neg (fun h => hne h.2), Option.or_none]

theorem find_backup_of_staged (o S : Store) (ho : WF o) (hS : WF S) (q : Bytes) (e : Entry)
    (hq : q ≠ str ".backup") (h : find (staged o S) q = some e) :
    find (backup o S) q = some e := by
  have hlen : (staged o S).length > 1 := by
    apply length_gt_one_of_find _ (str ".backup") q _ _ (Ne.symm hq)
    · rw [find_staged]; simp
    · rw [h]; rfl
  rw [backup_eq o S ho hS, if_pos hlen, find_merge _ (WF_staged o S), h]
  rfl

/-- C6: a path `p` of the reference store that is neither `.backup` nor under `.backup/`
and that is absent from the current store, or holds different data there, is saved by
`backup`: the current store then has `".backup/" + p` with the reference entry (same
mode, same data). -/
theorem backup_saves_lost_or_changed (o S : Store) (ho : WF o) (hS : WF S) (p : Bytes)
    (e : Entry) (hp : find o p = some e) (hp1 : p ≠ str ".backup")
    (hp2 : str_starts p (str ".backup/") = false)
    (hch : find S p = none ∨ ∃ e', find S p = some e' ∧ e'.data ≠ e.data) :
    find (backup o S) (str ".backup/" ++ p) = some e := by
  have hnb : isBackupPath p = false := by simp [isBackupPath, hp1, hp2]
  have hl : find (lost o S) p = some e := by
    rw [find_lost o S ho, find_rm_backup_of_not hnb, hp]
    have : lostOrChanged (rm S (str ".backup") true) (p, e) = true := by
      simp only [lostOrChanged]
      rw [find_rm_backup_of_not hnb]
      rcases hch with h | ⟨e', h, hd⟩
      · rw [h]
      · rw [h]; simpa using fun h2 => hd h2.symm
    simp [Option.filter, this]
  have hst : find (staged o S) (str ".backup/" ++ p) = some e := by
    by_cases hr : p = str ".rmlist"
    · subst hr
      rw [find_staged, if_neg (prefixed_ne_backup _), Option.none_or, find_prefixed,
        str_starts_append, if_pos rfl, drop_prefixed, hl]
      rfl
    · rw [find_staged_prefixed o S p hr, hl]
  exact find_backup_of_staged o S ho hS _ e (prefixed_ne_backup p) hst

theorem backup_saves_lost_or_changed_witness :
    find (backup [(str "a", ⟨0o100644, str "A"⟩), (str "b", ⟨0o100600, str "B"⟩)]
        [(str "a", ⟨0o100644, str "A"⟩), (str "b", ⟨0o100644, str "B2"⟩),
         (str "c", ⟨0o100644, str "C"⟩)])
      (str ".backup/b") = some ⟨0o100600, str "B"⟩ :=
  backup_saves_lost_or_changed _ _ (by decide) (by decide) (str "b") ⟨0o100600, str "B"⟩
    (by decide) (by decide) (by decide) (Or.inr ⟨⟨0o100644, str "B2"⟩, by decide, by decide⟩)

theorem rmListOf_eq_nil (l : List Bytes) : rmListOf l = [] ↔ l = [] := by
  cases l with
  | nil => simp [rmListOf]
  | cons k ks => simp [rmListOf]

theorem added_eq (o S : Store) :
    added o S =
      (keys (rm S (str ".backup") true)).filter
        (fun p => !exists_ (rm o (str ".backup") true) p) := by
  rw [added, keys, keys, List.filter_map]
  congr 1
  apply List.filter_congr
  intro x _
  simp [isNew, exists_]

/-- C7 as stated fails: with the reference store holding a file `.rmlist` that the (empty)
current store lacks, no path is new (`N` is empty) and yet `.backup/.rmlist` exists after
`backup`: it is the saved reference file, not a removal list. -/
theorem backup_rmlist_shadowed :
    (keys (rm [] (str ".backup") true)).filter
        (fun p => !exists_ (rm [(str ".rmlist", ⟨0o100644, str "x"⟩)] (str ".backup") true) p)
        = [] ∧
      find (backup [(str ".rmlist", ⟨0o100644, str "x"⟩)] []) (str ".backup/.rmlist") =
        some ⟨0o100644, str "x"⟩ := by
  decide

theorem find_backup_rmlist (o S : Store) (ho : WF o) (hS : WF S)
    (hrl : ∀ e, find o (str ".rmlist") = some e →
      ∃ e', find S (str ".rmlist") = some e' ∧ e'.data = e.data) :
    find (backup o S) (str ".backup/.rmlist") =
      if added o S = [] then none else some ⟨S_IFREG, rmListOf (added o S)⟩ := by
  have hnb : isBackupPath (str ".rmlist") = false := by decide
  have hl : find (lost o S) (str ".rmlist") = none := by
    rw [find_lost o S ho, find_rm_backup_of_not hnb]
    cases hf : find o (str ".rmlist") with
    | none => rfl
    | some e =>
      obtain ⟨e', he', hd⟩ := hrl e hf
      have : lostOrChanged (rm S (str ".backup") true) (str ".rmlist", e) = false := by
        simp only [lostOrChanged]
        rw [find_rm_backup_of_not hnb, he']
        simpa using hd.symm
      simp [Option.filter, this]
  have hst : find (staged o S) (str ".backup/.rmlist") =
      if rmListOf (added o S) ≠ [] then some (rmListEntry (rmListOf (added o S))) else none := by
    have h8 : (str ".backup/.rmlist").drop 8 = str ".rmlist" := by decide
    have hs : str_starts (str ".backup/.rmlist") (str ".backup/") = true := by decide
    have hn : str ".backup/.rmlist" ≠ str ".backup" := by decide
    rw [find_staged, if_neg hn, Option.none_or, find_prefixed, if_pos hs, h8, hl,
      Option.none_or]
    simp
  by_cases hN : added o S = []
  · rw [if_pos hN]
    have hr : rmListOf (added o S) = [] := (rmListOf_eq_nil _).mpr hN
    rw [if_neg (by simp [hr])] at hst
    have hb : isBackupPath (str ".backup/.rmlist") = true := by decide
    rw [backup_eq o S ho hS]
    split
    · rw [find_merge _ (WF_staged o S), hst, Option.none_or, find_rm_backup_of_backup hb]
    · exact find_rm_backup_of_backup hb
  · rw [if_neg hN]
    have hr : rmListOf (added o S) ≠ [] := fun h => hN ((rmListOf_eq_nil _).mp h)
    rw [if_pos hr] at hst
    exact find_backup_of_staged o S ho hS _ _ (by decide) hst

/-- C7, amended: unless the reference store has a path `.rmlist` that is missing from the
current store or differs there in data, `.backup/.rmlist` exists after `backup` iff the
list `N` of new paths is non-empty, and it is then the regular file (mode `S_IFREG`)
whose payload is each path of `N`, in iteration order, followed by one NUL byte. -/
theorem backup_writes_rmlist (o S : Store) (ho : WF o) (hS : WF S)
    (hrl : ∀ e, find o (str ".rmlist") = some e →
      ∃ e', find S (str ".rmlist") = some e' ∧ e'.data = e.data) :
    find (backup o S) (str ".backup/.rmlist") =
      if (keys (rm S (str ".backup") true)).filter
          (fun p => !exists_ (rm o (str ".backup") true) p) = [] then none
      else some ⟨S_IFREG, rmListOf ((keys (rm S (str ".backup") true)).filter
          (fun p => !exists_ (rm o (str ".backup") true) p))⟩ := by
  rw [← added_eq]
  exact find_backup_rmlist o S ho hS hrl

theorem backup_writes_rmlist_witness :
    find (backup [(str "a", ⟨0o100644, str "A"⟩), (str "b", ⟨0o100644, str "B"⟩)]
        [(str "a", ⟨0o100644, str "A"⟩), (str "b", ⟨0o100644, str "B"⟩),
         (str "c", ⟨0o100644, str "C"⟩)])
      (str ".backup/.rmlist") = some ⟨S_IFREG, [99, 0]⟩ :=
  backup_writes_rmlist _ _ (by decide) (by decide) (by decide)

/-- C9: when the reference and the current store, both cleared of `.backup`, have the same
paths with the same data at each, `backup` leaves the current store cleared of `.backup`
and adds nothing: no entry `.backup` and none under `.backup/`. -/
theorem backup_records_nothing (o S : Store) (ho : WF o) (hS : WF S)
    (h : ∀ p, (find (rm o (str ".backup") true) p).map Entry.data =
      (find (rm S (str ".backup") true) p).map Entry.data) :
    backup o S = rm S (str ".backup") true ∧
      ∀ k ∈ keys (backup o S), k ≠ str ".backup" ∧ str_starts k (str ".backup/") = false := by
  have hl : lost o S = [] := by
    rw [lost, List.filter_eq_nil_iff]
    intro x hx
    obtain ⟨k, e⟩ := x
    have h1 := find_of_mem (WF_rm ho _ _) hx
    have h2 := h k
    rw [h1] at h2
    simp only [Option.map_some'] at h2
    cases hf : find (rm S (str ".backup") true) k with
    | none => rw [hf] at h2; simp at h2
    | some e' =>
      rw [hf] at h2
      simp only [Option.map_some', Option.some.injEq] at h2
      simp [lostOrChanged, hf, h2]
  have ha : added o S = [] := by
    rw [added, keys, List.map_eq_nil_iff, List.filter_eq_nil_iff]
    intro x hx
    obtain ⟨k, e⟩ := x
    have h1 := find_of_mem (WF_rm hS _ _) hx
    have h2 := h k
    rw [h1] at h2
    cases hf : find (rm o (str ".backup") true) k with
    | none => rw [hf] at h2; simp at h2
    | some e' => simp [isNew, hf]
  have hst : staged o S = [(str ".backup", dirEntry)] := by
    simp [staged, ha, hl, rmListOf, stage, emplace, find, insert]
  have hb : backup o S = rm S (str ".backup") true := by
    rw [backup_eq o S ho hS, hst]; simp
  refine ⟨hb, ?_⟩
  intro k hk
  rw [hb, rm_backup_eq] at hk
  obtain ⟨x, hx, hxk⟩ := List.mem_map.mp hk
  have := (List.mem_filter.mp hx).2
  rw [hxk] at this
  simp only [isBackupPath, Bool.not_eq_true', Bool.or_eq_false_iff, beq_eq_false_iff_ne] at this
  exact ⟨this.1, this.2⟩

theorem backup_records_nothing_witness :
    backup [(str ".backup", dirEntry), (str ".backup/z", ⟨0o100644, str "Z"⟩),
        (str "a", ⟨0o100644, str "A"⟩)]
      [(str ".backup/y", ⟨0o100644, str "Y"⟩), (str "a", ⟨0o100755, str "A"⟩)] =
      [(str "a", ⟨0o100755, str "A"⟩)] :=
  (backup_records_nothing _ _ (by decide) (by decide) (by
    intro p
    have e1 : rm [(str ".backup", dirEntry), (str ".backup/z", ⟨0o100644, str "Z"⟩),
        (str "a", ⟨0o100644, str "A"⟩)] (str ".backup") true =
        [(str "a", ⟨0o100644, str "A"⟩)] := by decide
    have e2 : rm [(str ".backup/y", ⟨0o100644, str "Y"⟩), (str "a", ⟨0o100755, str "A"⟩)]
        (str ".backup") true = [(str "a", ⟨0o100755, str "A"⟩)] := by decide
    rw [e1, e2]
    simp only [find]
    split_ifs <;> rfl)).1

/-! ## The keys that `restore` leaves -/

theorem mem_keys_erase {S : Store} {k q : Bytes} :
    q ∈ keys (erase S k) ↔ q ∈ keys S ∧ q ≠ k := by
  rw [← exists_iff_mem_keys, ← exists_iff_mem_keys, exists_, exists_, find_erase]
  by_cases h : q = k <;> simp [h]

theorem mem_keys_rm_false {S : Store} {k q : Bytes} :
    q ∈ keys (rm S k false) ↔ q ∈ keys S ∧ q ≠ k := by
  have : rm S k false = erase S k := by simp [rm]
  rw [this, mem_keys_erase]

theorem mem_keys_rmIt {S : Store} {it : Option Bytes} {q : Bytes} :
    q ∈ keys (rmIt S it) ↔ q ∈ keys S ∧ it ≠ some q := by
  cases it with
  | none => simp [rmIt]
  | some k =>
    simp only [rmIt, mem_keys_erase, ne_eq, Option.some.injEq]
    constructor
    · rintro ⟨h1, h2⟩; exact ⟨h1, fun h => h2 h.symm⟩
    · rintro ⟨h1, h2⟩; exact ⟨h1, fun h => h2 h.symm⟩

theorem mem_keys_foldl_rm {files : List Bytes} {S : Store} {q : Bytes} :
    q ∈ keys (files.foldl (fun acc file => rm acc file false) S) ↔ q ∈ keys S ∧ q ∉ files := by
  induction files generalizing S with
  | nil => simp
  | cons f t ih =>
    rw [List.foldl_cons, ih, mem_keys_rm_false]
    simp only [List.mem_cons, not_or]
    tauto

theorem mem_keys_insert {S : Store} {k q : Bytes} {e : Entry} :
    q ∈ keys (insert S k e) ↔ q = k ∨ q ∈ keys S := by
  rw [← exists_iff_mem_keys, ← exists_iff_mem_keys, exists_, exists_, find_insert]
  by_cases h : q = k <;> simp [h]

theorem mem_keys_removeListed {S U : Store} {rl : Option Bytes}
    (h : removeListed S rl = some U) {q : Bytes} (hq : q ∈ keys U) :
    q ∈ keys S ∧ rl ≠ some q := by
  cases rl with
  | none =>
    simp only [removeListed, Option.some.injEq] at h
    subst h
    exact ⟨hq, by simp⟩
  | some it =>
    simp only [removeListed] at h
    cases hf : find S it with
    | none => rw [hf] at h; simp at h
    | some e =>
      rw [hf] at h
      simp only at h
      cases hs : for_each_str e.data with
      | none => rw [hs] at h; simp at h
      | some files =>
        rw [hs] at h
        simp only at h
        split_ifs at h
        simp only [Option.some.injEq] at h
        subst h
        rw [mem_keys_rmIt, mem_keys_foldl_rm] at hq
        exact ⟨hq.1.1, hq.2⟩

theorem mem_keys_restoreFiles {ks : List Bytes} {U V : Store}
    (h : restoreFiles ks U = some V) {q : Bytes} (hq : q ∈ keys V) :
    (q ∈ keys U ∧ q ∉ ks) ∨ ∃ k ∈ ks, q = cstr (k.drop 8) := by
  induction ks generalizing U with
  | nil =>
    simp only [restoreFiles, Option.some.injEq] at h
    subst h
    exact Or.inl ⟨hq, by simp⟩
  | cons k rest ih =>
    simp only [restoreFiles, mvIt] at h
    split at h
    · simp at h
    · rename_i U' hU'
      split at hU'
      · simp at hU'
      · rename_i e _
        simp only [Option.some.injEq] at hU'
        subst hU'
        rcases ih h with ⟨h1, h2⟩ | ⟨k', hk', hq'⟩
        · rw [mem_keys_insert, mem_keys_erase] at h1
          rcases h1 with h1 | ⟨h1, h3⟩
          · exact Or.inr ⟨k, List.mem_cons_self _ _, h1⟩
          · refine Or.inl ⟨h1, ?_⟩
            simp only [List.mem_cons, not_or]
            exact ⟨h3, h2⟩
        · exact Or.inr ⟨k', List.mem_cons_of_mem _ hk', hq'⟩

theorem str_starts_trans {a b c : Bytes} (h1 : str_starts b a = true)
    (h2 : str_starts c b = true) : str_starts c a = true := by
  simp only [str_starts, List.isPrefixOf_iff_prefix] at *
  exact h1.trans h2

theorem str_starts_of_cstr {s p : Bytes} (h : str_starts (cstr s) p = true) :
    str_starts s p = true := by
  simp only [str_starts, List.isPrefixOf_iff_prefix] at *
  exact h.trans ( List.takeWhile_prefix _)

/-- C5 as stated fails: the entry `.backup/.backup/x` is renamed to `.backup/x`, a path
that begins with `.backup`, and it remains after `restore`. -/
theorem restore_keeps_nested_backup :
    restore [(str ".backup/.backup/x", ⟨0o100644, str "X"⟩)] =
        some [(str ".backup/x", ⟨0o100644, str "X"⟩)] ∧
      str_starts (str ".backup/x") (str ".backup") = true := by
  decide

/-- C5, amended: when the only paths of the store that begin with `.backup` are `.backup`
itself and paths `".backup/" + tail` whose tail does not begin with `.backup`, the store
that `restore` leaves has no entry whose path begins with `.backup`. -/
theorem restore_leaves_no_backup (S R : Store) (hr : restore S = some R)
    (hS : ∀ k ∈ keys S, str_starts k (str ".backup") = true →
      k = str ".backup" ∨
        (str_starts k (str ".backup/") = true ∧
          str_starts (k.drop 8) (str ".backup") = false)) :
    ∀ q ∈ keys R, str_starts q (str ".backup") = false := by
  intro q hq
  by_contra hst
  rw [Bool.not_eq_false] at hst
  have hpre : str_starts (str ".backup/") (str ".backup") = true := by decide
  have hbackups : (collect S).backups = (keys S).filter isOtherBackup := by
    rw [collect_eq]
  unfold restore at hr
  simp only at hr
  split_ifs at hr with hdeg
  · simp only [Option.some.injEq] at hr
    subst hr
    simp [keys] at hq
  · cases hS3 : removeListed (rmIt (rmIt S (collect S).bk) (collect S).mg) (collect S).rl with
    | none => rw [hS3] at hr; simp at hr
    | some S3 =>
      rw [hS3] at hr
      simp only at hr
      rcases mem_keys_restoreFiles hr hq with ⟨h1, h2⟩ | ⟨k, hk, hqk⟩
      · have h3 := mem_keys_removeListed hS3 h1
        rw [mem_keys_rmIt, mem_keys_rmIt] at h3
        obtain ⟨⟨⟨hqS, hbk⟩, hmg⟩, hrl⟩ := h3
        rw [collect_eq] at hbk hmg hrl
        simp only at hbk hmg hrl
        have n1 : q ≠ str ".backup" := by
          intro h; subst h; simp [hqS] at hbk
        have n2 : q ≠ str ".backup/.magisk" := by
          intro h; subst h; simp [hqS] at hmg
        have n3 : q ≠ str ".backup/.rmlist" := by
          intro h; subst h; simp [hqS] at hrl
        rcases hS q hqS hst with h | ⟨h, _⟩
        · exact n1 h
        · apply h2
          rw [hbackups, List.mem_filter]
          refine ⟨hqS, ?_⟩
          simp [isOtherBackup, n1, n2, n3, h]
      · rw [hbackups, List.mem_filter] at hk
        obtain ⟨hkS, hko⟩ := hk
        simp only [isOtherBackup, Bool.and_eq_true, bne_iff_ne, ne_eq] at hko
        rcases hS k hkS (str_starts_trans hpre hko.2) with h | ⟨_, h⟩
        · exact hko.1.1.1 h
        · rw [hqk] at hst
          rw [str_starts_of_cstr hst] at h
          simp at h

theorem restore_leaves_no_backup_witness :
    restore [(str ".backup", dirEntry), (str ".backup/.rmlist", ⟨S_IFREG, [99, 0]⟩),
        (str ".backup/b", ⟨0o100644, str "B"⟩), (str "a", ⟨0o100644, str "A"⟩),
        (str "b", ⟨0o100644, str "B2"⟩), (str "c", ⟨0o100644, str "C"⟩)] =
        some [(str "a", ⟨0o100644, str "A"⟩), (str "b", ⟨0o100644, str "B"⟩)] ∧
      str_starts (str "a") (str ".backup") = false ∧
      str_starts (str "b") (str ".backup") = false :=
  ⟨by decide,
   restore_leaves_no_backup
    [(str ".backup", dirEntry), (str ".backup/.rmlist", ⟨S_IFREG, [99, 0]⟩),
     (str ".backup/b", ⟨0o100644, str "B"⟩), (str "a", ⟨0o100644, str "A"⟩),
     (str "b", ⟨0o100644, str "B2"⟩), (str "c", ⟨0o100644, str "C"⟩)]
    [(str "a", ⟨0o100644, str "A"⟩), (str "b", ⟨0o100644, str "B"⟩)]
    (by decide) (by decide) (str "a") (by decide),
   restore_leaves_no_backup
    [(str ".backup", dirEntry), (str ".backup/.rmlist", ⟨S_IFREG, [99, 0]⟩),
     (str ".backup/b", ⟨0o100644, str "B"⟩), (str "a", ⟨0o100644, str "A"⟩),
     (str "b", ⟨0o100644, str "B2"⟩), (str "c", ⟨0o100644, str "C"⟩)]
    [(str "a", ⟨0o100644, str "A"⟩), (str "b", ⟨0o100644, str "B"⟩)]
    (by decide) (by decide) (str "b") (by decide)⟩

/-! ## Reading the removal list back -/

theorem cstr_append_nul (k rest : Bytes) (hk : 0 ∉ k) : cstr (k ++ 0 :: rest) = k := by
  induction k with
  | nil => simp [cstr]
  | cons b bs ih =>
    have hb : b ≠ 0 := fun h => hk (h ▸ List.mem_cons_self _ _)
    have hbs : 0 ∉ bs := fun h => hk (List.mem_cons_of_mem _ h)
    have := ih hbs
    simp only [cstr] at this ⊢
    simp [List.takeWhile_cons, hb, this]

theorem cstr_of_nul_free (k : Bytes) (hk : 0 ∉ k) : cstr k = k := by
  induction k with
  | nil => simp [cstr]
  | cons b bs ih =>
    have hb : b ≠ 0 := fun h => hk (h ▸ List.mem_cons_self _ _)
    have hbs : 0 ∉ bs := fun h => hk (List.mem_cons_of_mem _ h)
    have := ih hbs
    simp only [cstr] at this ⊢
    simp [List.takeWhile_cons, hb, this]

theorem forEachStrFuel_rmListOf (l : List Bytes) (hl : ∀ k ∈ l, 0 ∉ k) (fuel : Nat)
    (hfuel : (rmListOf l).length ≤ fuel) :
    forEachStrFuel fuel (rmListOf l) = some l := by
  induction l generalizing fuel with
  | nil => cases fuel <;> simp [rmListOf, forEachStrFuel]
  | cons k ks ih =>
    have hk : 0 ∉ k := hl k (List.mem_cons_self _ _)
    have hks : ∀ k' ∈ ks, 0 ∉ k' := fun k' h => hl k' (List.mem_cons_of_mem _ h)
    have hbuf : rmListOf (k :: ks) = k ++ 0 :: rmListOf ks := by simp [rmListOf]
    rw [hbuf] at hfuel ⊢
    cases fuel with
    | zero => simp at hfuel
    | succ n =>
      have hne : k ++ 0 :: rmListOf ks ≠ [] := by simp
      have hc : (k ++ 0 :: rmListOf ks).contains 0 = true := by simp
      have hdrop : (k ++ 0 :: rmListOf ks).drop (k.length + 1) = rmListOf ks := by
        rw [List.drop_append_eq_append_drop]
        simp
      simp only [forEachStrFuel, hne, if_false, hc, if_true, cstr_append_nul k _ hk, hdrop]
      rw [ih hks n (by simp at hfuel; omega)]
      rfl

theorem for_each_str_rmListOf (l : List Bytes) (hl : ∀ k ∈ l, 0 ∉ k) :
    for_each_str (rmListOf l) = some l :=
  forEachStrFuel_rmListOf l hl _ (le_refl _)

/-! ## The lookups of `restore` -/

theorem find_foldl_rm (files : List Bytes) (S : Store) (q : Bytes) :
    find (files.foldl (fun acc file => rm acc file false) S) q =
      if q ∈ files then none else find S q := by
  induction files generalizing S with
  | nil => simp
  | cons f t ih =>
    rw [List.foldl_cons, ih]
    have : rm S f false = erase S f := by simp [rm]
    rw [this, find_erase]
    by_cases h1 : q ∈ t
    · simp [h1]
    · by_cases h2 : q = f
      · simp [h2]
      · simp [h1, h2]

theorem WF_foldl_rm (files : List Bytes) {S : Store} (hS : WF S) :
    WF (files.foldl (fun acc file => rm acc file false) S) := by
  induction files generalizing S with
  | nil => exact hS
  | cons f t ih => exact ih (WF_rm hS _ _)

theorem nodup_keys {S : Store} (hS : WF S) : (keys S).Nodup := by
  rw [keys, List.Nodup, List.pairwise_map]
  exact List.Pairwise.imp (fun h => strCompare_lt_ne h) hS

theorem WF_restoreFiles {ks : List Bytes} {U V : Store} (h : restoreFiles ks U = some V)
    (hU : WF U) : WF V := by
  induction ks generalizing U with
  | nil =>
    simp only [restoreFiles, Option.some.injEq] at h
    exact h ▸ hU
  | cons k rest ih =>
    simp only [restoreFiles, mvIt] at h
    cases hf : find U k with
    | none => rw [hf] at h; simp at h
    | some e =>
      rw [hf] at h
      exact ih h (WF_insert (WF_erase hU _) _ _)

theorem find_restoreFiles (ks : List Bytes) (U : Store) (hnd : ks.Nodup)
    (hpres : ∀ k ∈ ks, (find U k).isSome)
    (hform : ∀ k ∈ ks, str_starts k (str ".backup/") = true ∧
      cstr (k.drop 8) = k.drop 8 ∧ str_starts (k.drop 8) (str ".backup/") = false) :
    ∃ V, restoreFiles ks U = some V ∧
      ∀ q, find V q =
        if q ∈ ks then none
        else if str ".backup/" ++ q ∈ ks then find U (str ".backup/" ++ q)
        else find U q := by
  induction ks generalizing U with
  | nil => exact ⟨U, rfl, fun q => by simp⟩
  | cons k rest ih =>
    obtain ⟨hks, hcs, hns⟩ := hform k (List.mem_cons_self _ _)
    have hk8 : k = str ".backup/" ++ k.drop 8 := eq_append_drop_of_starts hks
    have hkp : k ≠ k.drop 8 := by
      intro h
      rw [← h, hks] at hns
      exact absurd hns (by simp)
    obtain ⟨e, he⟩ := Option.isSome_iff_exists.mp (hpres k (List.mem_cons_self _ _))
    have hnd' := List.nodup_cons.mp hnd
    have hfU : ∀ x, find (insert (erase U k) (k.drop 8) e) x =
        if x = k.drop 8 then some e else if x = k then none else find U x := by
      intro x; rw [find_insert, find_erase]
    have hrest_ne : ∀ k' ∈ rest, k' ≠ k.drop 8 ∧ k' ≠ k := by
      intro k' hk'
      constructor
      · intro h
        have := (hform k' (List.mem_cons_of_mem _ hk')).1
        rw [h, hns] at this
        exact absurd this (by simp)
      · intro h; exact hnd'.1 (h ▸ hk')
    obtain ⟨V, hV, hfind⟩ := ih (insert (erase U k) (k.drop 8) e) hnd'.2
      (by
        intro k' hk'
        obtain ⟨n1, n2⟩ := hrest_ne k' hk'
        rw [hfU, if_neg n1, if_neg n2]
        exact hpres k' (List.mem_cons_of_mem _ hk'))
      (fun k' hk' => hform k' (List.mem_cons_of_mem _ hk'))
    refine ⟨V, ?_, ?_⟩
    · simp only [restoreFiles, mvIt, he, hcs]
      exact hV
    · intro q
      rw [hfind q]
      by_cases hq : q ∈ rest
      · simp [hq]
      · rw [if_neg hq]
        by_cases hqk : q = k
        · subst hqk
          have hpq : str ".backup/" ++ q ∉ rest := by
            intro h
            have := (hform _ (List.mem_cons_of_mem _ h)).2.2
            rw [drop_prefixed, hks] at this
            exact absurd this (by simp)
          rw [if_neg hpq, hfU, if_neg hkp]
          simp
        · have hqm : q ∉ k :: rest := by
            simp only [List.mem_cons, not_or]; exact ⟨hqk, hq⟩
          rw [if_neg hqm]
          by_cases hpq : str ".backup/" ++ q ∈ rest
          · obtain ⟨n1, n2⟩ := hrest_ne _ hpq
            rw [if_pos hpq, hfU, if_neg n1, if_neg n2, if_pos (List.mem_cons_of_mem _ hpq)]
          · rw [if_neg hpq, hfU]
            by_cases hqp : q = k.drop 8
            · rw [if_pos hqp]
              have : str ".backup/" ++ q = k := by rw [hqp]; exact hk8.symm
              rw [if_pos (by rw [this]; exact List.mem_cons_self _ _), this, he]
            · have : str ".backup/" ++ q ≠ k := by
                intro h
                apply hqp
                rw [← h, drop_prefixed]
              have hnm : str ".backup/" ++ q ∉ k :: rest := by
                simp only [List.mem_cons, not_or]; exact ⟨this, hpq⟩
              rw [if_neg hqp, if_neg hqk, if_neg hnm]

theorem isOtherBackup_iff (k : Bytes) :
    isOtherBackup k = true ↔
      k ≠ str ".backup" ∧ k ≠ str ".backup/.rmlist" ∧ k ≠ str ".backup/.magisk" ∧
        str_starts k (str ".backup/") = true := by
  simp [isOtherBackup, and_assoc]

theorem isBackupPath_of_starts {k : Bytes} (h : str_starts k (str ".backup/") = true) :
    isBackupPath k = true := by
  simp [isBackupPath, h]

/-- What `restore` returns on a well-formed store without `.backup/.magisk` whose removal
list reads back as `files`, none of them under `.backup`, and whose backed-up tails are
C strings outside `.backup/`. -/
theorem restore_find (T : Store) (files : List Bytes) (hT : WF T)
    (hmg : str ".backup/.magisk" ∉ keys T)
    (hrl : (find T (str ".backup/.rmlist") = none ∧ files = []) ∨
      ∃ e, find T (str ".backup/.rmlist") = some e ∧ for_each_str e.data = some files)
    (hfiles : ∀ f ∈ files, isBackupPath f = false)
    (hform : ∀ k ∈ keys T, isOtherBackup k = true →
      cstr (k.drop 8) = k.drop 8 ∧ str_starts (k.drop 8) (str ".backup/") = false) :
    ∃ R, restore T = some R ∧ WF R ∧
      ∀ q, find R q =
        if q ∈ (keys T).filter isOtherBackup then none
        else if str ".backup/" ++ q ∈ (keys T).filter isOtherBackup then
          find T (str ".backup/" ++ q)
        else if q = str ".backup" ∨ q = str ".backup/.rmlist" ∨ q ∈ files then none
        else find T q := by
  have hc := collect_eq T
  have hbk : rmIt T (collect T).bk = erase T (str ".backup") := by
    rw [hc]; simp only
    split
    · rfl
    · rename_i h; rw [rmIt, erase_of_not_mem h]
  have hmgc : (collect T).mg = none := by rw [hc]; simp [hmg]
  have hrlc : (collect T).rl =
      if str ".backup/.rmlist" ∈ keys T then some (str ".backup/.rmlist") else none := by
    rw [hc]
  have hbc : (collect T).backups = (keys T).filter isOtherBackup := by rw [hc]
  have hne : str ".backup/.rmlist" ≠ str ".backup" := by decide
  have hrb : isBackupPath (str ".backup/.rmlist") = true := by decide
  -- the store after the removals
  have hU : ∃ U, removeListed (erase T (str ".backup")) (collect T).rl = some U ∧ WF U ∧
      ∀ x, find U x =
        if x = str ".backup" ∨ x = str ".backup/.rmlist" ∨ x ∈ files then none
        else find T x := by
    rcases hrl with ⟨hnone, hfl⟩ | ⟨e, hsome, hfe⟩
    · have : str ".backup/.rmlist" ∉ keys T := (find_eq_none_iff _ _).mp hnone
      rw [hrlc, if_neg this]
      refine ⟨_, rfl, WF_erase hT _, ?_⟩
      intro x
      rw [find_erase, hfl]
      by_cases h1 : x = str ".backup"
      · simp [h1]
      · by_cases h2 : x = str ".backup/.rmlist"
        · simp [h2, hnone]
        · simp [h1, h2]
    · have : str ".backup/.rmlist" ∈ keys T := by
        rw [← exists_iff_mem_keys, exists_, hsome]; rfl
      rw [hrlc, if_pos this]
      have hfe' : find (erase T (str ".backup")) (str ".backup/.rmlist") = some e := by
        rw [find_erase, if_neg hne, hsome]
      have hnc : files.contains (str ".backup/.rmlist") = false := by
        rw [Bool.eq_false_iff]
        intro h
        have := hfiles _ (by simpa using h)
        rw [hrb] at this
        exact absurd this (by simp)
      refine ⟨_, by simp only [removeListed, hfe', hfe, hnc]; rfl,
        WF_erase (WF_foldl_rm _ (WF_erase hT _)) _, ?_⟩
      intro x
      show find (erase _ _) x = _
      rw [find_erase, find_foldl_rm, find_erase]
      by_cases h1 : x = str ".backup"
      · simp [h1]
      · by_cases h2 : x = str ".backup/.rmlist"
        · simp [h2]
        · by_cases h3 : x ∈ files
          · simp [h3]
          · simp [h1, h2, h3]
  obtain ⟨U, hUeq, hUwf, hUfind⟩ := hU
  -- a collected key is still in the store after the removals
  have hkeep : ∀ k ∈ (keys T).filter isOtherBackup, find U k = find T k ∧ (find T k).isSome := by
    intro k hk
    obtain ⟨hkT, hko⟩ := List.mem_filter.mp hk
    obtain ⟨n1, n2, _, hs⟩ := (isOtherBackup_iff k).mp hko
    have n3 : k ∉ files := by
      intro h
      have := hfiles k h
      rw [isBackupPath_of_starts hs] at this
      exact absurd this (by simp)
    refine ⟨by rw [hUfind]; simp [n1, n2, n3], ?_⟩
    have := (exists_iff_mem_keys T k).mpr hkT
    exact this
  obtain ⟨V, hV, hVfind⟩ := find_restoreFiles ((keys T).filter isOtherBackup) U
    ((nodup_keys hT).filter _)
    (fun k hk => by rw [(hkeep k hk).1]; exact (hkeep k hk).2)
    (fun k hk => by
      obtain ⟨hkT, hko⟩ := List.mem_filter.mp hk
      exact ⟨((isOtherBackup_iff k).mp hko).2.2.2, hform k hkT hko⟩)
  refine ⟨V, ?_, WF_restoreFiles hV hUwf, ?_⟩
  · unfold restore
    simp only [hmgc, hbk, hbc]
    have : rmIt (erase T (str ".backup")) none = erase T (str ".backup") := rfl
    simp only [Option.isSome_none, Bool.and_false, Bool.false_and, Bool.false_eq_true,
      if_false, this, hUeq]
    exact hV
  · intro q
    rw [hVfind]
    by_cases h1 : q ∈ (keys T).filter isOtherBackup
    · simp [h1]
    · rw [if_neg h1, if_neg h1]
      by_cases h2 : str ".backup/" ++ q ∈ (keys T).filter isOtherBackup
      · rw [if_pos h2, if_pos h2, (hkeep _ h2).1]
      · rw [if_neg h2, if_neg h2, hUfind]

/-! ## The store that `backup` leaves -/

theorem find_staged_of_not_backup (o S : Store) {q : Bytes} (hq : isBackupPath q = false) :
    find (staged o S) q = none := by
  simp only [isBackupPath, Bool.or_eq_false_iff, beq_eq_false_iff_ne] at hq
  have hrl : q ≠ str ".backup/.rmlist" := by
    intro h
    have : str_starts q (str ".backup/") = true := by rw [h]; decide
    rw [hq.2] at this
    exact absurd this (by simp)
  rw [find_staged, if_neg hq.1, find_prefixed, hq.2]
  simp [hrl]

theorem find_backup_of_not_backup (o S : Store) (ho : WF o) (hS : WF S) {q : Bytes}
    (hq : isBackupPath q = false) : find (backup o S) q = find S q := by
  rw [backup_eq o S ho hS]
  split
  · rw [find_merge _ (WF_staged o S), find_staged_of_not_backup o S hq, Option.none_or,
      find_rm_backup_of_not hq]
  · exact find_rm_backup_of_not hq

theorem find_backup_prefixed (o S : Store) (ho : WF o) (hS : WF S) (p : Bytes)
    (hp : p ≠ str ".rmlist") :
    find (backup o S) (str ".backup/" ++ p) = find (lost o S) p := by
  cases hl : find (lost o S) p with
  | some e =>
    apply find_backup_of_staged o S ho hS _ e (prefixed_ne_backup p)
    rw [find_staged_prefixed o S p hp, hl]
  | none =>
    rw [backup_eq o S ho hS]
    split
    · rw [find_merge _ (WF_staged o S), find_staged_prefixed o S p hp, hl, Option.none_or,
        find_rm_backup_of_backup (isBackupPath_prefixed p)]
    · exact find_rm_backup_of_backup (isBackupPath_prefixed p)

theorem mem_added (o S : Store) (hS : WF S) (q : Bytes) :
    q ∈ added o S ↔
      (find (rm S (str ".backup") true) q).isSome ∧
        find (rm o (str ".backup") true) q = none := by
  rw [added, ← exists_iff_mem_keys, exists_, find_filter_WF (WF_rm hS _ _)]
  cases find (rm S (str ".backup") true) q with
  | none => simp [Option.filter]
  | some e => simp [Option.filter, isNew]

theorem rm_backup_of_none {o : Store}
    (h : ∀ k ∈ keys o, k ≠ str ".backup" ∧ str_starts k (str ".backup/") = false) :
    rm o (str ".backup") true = o := by
  rw [rm_backup_eq, List.filter_eq_self]
  intro kv hkv
  obtain ⟨h1, h2⟩ := h kv.1 (List.mem_map.mpr ⟨kv, hkv, rfl⟩)
  simp [isBackupPath, h1, h2]

theorem isSome_find_iff (S : Store) (q : Bytes) : (find S q).isSome = true ↔ q ∈ keys S :=
  exists_iff_mem_keys S q

theorem find_some_mem_keys {S : Store} {q : Bytes} {e : Entry} (h : find S q = some e) :
    q ∈ keys S := mem_keys_of_mem (mem_of_find h)

/-- The round trip under the conditions that `backup` and `restore` rely on: the
reference store uses no reserved path, and no path holds a NUL byte. -/
theorem restore_backup_find (o S : Store) (ho : WF o) (hS : WF S)
    (hres : ∀ k ∈ keys o, k ≠ str ".backup" ∧ str_starts k (str ".backup/") = false ∧
      k ≠ str ".rmlist" ∧ k ≠ str ".magisk")
    (hnulo : ∀ k ∈ keys o, 0 ∉ k) (hnulS : ∀ k ∈ keys S, 0 ∉ k) :
    ∃ R, restore (backup o S) = some R ∧ WF R ∧ ∀ q, find R q = roundTrip o S q := by
  have ho1 : rm o (str ".backup") true = o :=
    rm_backup_of_none (fun k hk => ⟨(hres k hk).1, (hres k hk).2.1⟩)
  have hob : ∀ q, isBackupPath q = true → find o q = none := by
    intro q hq
    rw [find_eq_none_iff]
    intro hk
    obtain ⟨h1, h2, _⟩ := hres q hk
    simp [isBackupPath, h1, h2] at hq
  have hlost : ∀ p, find (lost o S) p =
      (find o p).filter (fun e => lostOrChanged (rm S (str ".backup") true) (p, e)) := by
    intro p; rw [find_lost o S ho, ho1]
  have hlost_some : ∀ p e, find (lost o S) p = some e → find o p = some e := by
    intro p e h
    rw [hlost] at h
    cases hf : find o p with
    | none => rw [hf] at h; simp [Option.filter] at h
    | some e0 =>
      rw [hf] at h
      simp only [Option.filter] at h
      split_ifs at h
      exact h
  have hT := WF_backup ho hS
  -- the sentinel is absent
  have hmg : str ".backup/.magisk" ∉ keys (backup o S) := by
    rw [← find_eq_none_iff]
    have e1 : str ".backup/.magisk" = str ".backup/" ++ str ".magisk" := by decide
    rw [e1, find_backup_prefixed o S ho hS _ (by decide)]
    cases hl : find (lost o S) (str ".magisk") with
    | none => rfl
    | some e =>
      exact absurd rfl (hres _ (find_some_mem_keys (hlost_some _ _ hl))).2.2.2
  -- the removal list reads back as the added paths
  have hrl0 := find_backup_rmlist o S ho hS (by
    intro e he
    exact absurd rfl (hres _ (find_some_mem_keys he)).2.2.1)
  have hadd_S : ∀ f ∈ added o S, f ∈ keys S ∧ isBackupPath f = false ∧ find o f = none := by
    intro f hf
    rw [mem_added o S hS, ho1, find_rm_backup] at hf
    obtain ⟨h1, h2⟩ := hf
    by_cases hb : isBackupPath f = true
    · rw [if_pos hb] at h1; simp at h1
    · rw [if_neg hb] at h1
      exact ⟨(isSome_find_iff S f).mp h1, by simpa using hb, h2⟩
  have hrl : (find (backup o S) (str ".backup/.rmlist") = none ∧ added o S = []) ∨
      ∃ e, find (backup o S) (str ".backup/.rmlist") = some e ∧
        for_each_str e.data = some (added o S) := by
    by_cases ha : added o S = []
    · left; rw [hrl0, if_pos ha]; exact ⟨rfl, ha⟩
    · right
      rw [hrl0, if_neg ha]
      exact ⟨_, rfl, for_each_str_rmListOf _ (fun k hk => hnulS k (hadd_S k hk).1)⟩
  -- the collected keys
  have hform : ∀ k ∈ keys (backup o S), isOtherBackup k = true →
      (find (backup o S) k = find (lost o S) (k.drop 8) ∧ k.drop 8 ∈ keys o) := by
    intro k hk hko
    obtain ⟨_, n2, _, hs⟩ := (isOtherBackup_iff k).mp hko
    have hk8 : k = str ".backup/" ++ k.drop 8 := eq_append_drop_of_starts hs
    have hp : k.drop 8 ≠ str ".rmlist" := by
      intro h; apply n2; rw [hk8, h]; decide
    have h1 : find (backup o S) k = find (lost o S) (k.drop 8) := by
      conv_lhs => rw [hk8]
      exact find_backup_prefixed o S ho hS _ hp
    refine ⟨h1, ?_⟩
    obtain ⟨e, he⟩ := Option.isSome_iff_exists.mp ((isSome_find_iff _ k).mpr hk)
    rw [h1] at he
    exact find_some_mem_keys (hlost_some _ _ he)
  obtain ⟨R, hR, hRwf, hfind⟩ := restore_find (backup o S) (added o S) hT hmg hrl
    (fun f hf => (hadd_S f hf).2.1)
    (fun k hk hko => by
      have hko' := (hform k hk hko).2
      exact ⟨cstr_of_nul_free _ (hnulo _ hko'), (hres _ hko').2.1⟩)
  refine ⟨R, hR, hRwf, ?_⟩
  intro q
  rw [hfind]
  by_cases h1 : q ∈ (keys (backup o S)).filter isOtherBackup
  · rw [if_pos h1]
    obtain ⟨_, hko⟩ := List.mem_filter.mp h1
    simp [roundTrip, hob q (isBackupPath_of_starts ((isOtherBackup_iff q).mp hko).2.2.2)]
  rw [if_neg h1]
  by_cases h2 : str ".backup/" ++ q ∈ (keys (backup o S)).filter isOtherBackup
  · rw [if_pos h2]
    obtain ⟨hk, hko⟩ := List.mem_filter.mp h2
    have h3 := (hform _ hk hko).1
    rw [drop_prefixed] at h3
    rw [h3]
    obtain ⟨e, he⟩ := Option.isSome_iff_exists.mp ((isSome_find_iff _ _).mpr hk)
    rw [h3] at he
    have hoq := hlost_some _ _ he
    have hnb : isBackupPath q = false := by
      obtain ⟨r1, r2, _⟩ := hres q (find_some_mem_keys hoq)
      simp [isBackupPath, r1, r2]
    rw [he]
    rw [hlost, hoq] at he
    simp only [Option.filter] at he
    split_ifs at he with hlc
    simp only [lostOrChanged, find_rm_backup_of_not hnb] at hlc
    simp only [roundTrip, hoq]
    cases hfs : find S q with
    | none => rfl
    | some e' =>
      rw [hfs] at hlc
      simp only [ne_eq, decide_not, Bool.not_eq_true', decide_eq_false_iff_not,
        not_not, Bool.not_eq_true, decide_eq_true_eq] at hlc
      simp [hlc]
  rw [if_neg h2]
  by_cases h3 : q = str ".backup" ∨ q = str ".backup/.rmlist" ∨ q ∈ added o S
  · rw [if_pos h3]
    rcases h3 with h | h | h
    · rw [h]; simp [roundTrip, hob _ (by decide : isBackupPath (str ".backup") = true)]
    · rw [h]
      simp [roundTrip, hob _ (by decide : isBackupPath (str ".backup/.rmlist") = true)]
    · simp [roundTrip, (hadd_S q h).2.2]
  rw [if_neg h3]
  simp only [not_or] at h3
  obtain ⟨n1, n2, n3⟩ := h3
  by_cases hb : isBackupPath q = true
  · have : find (backup o S) q = none := by
      rw [find_eq_none_iff]
      intro hk
      apply h1
      rw [List.mem_filter]
      refine ⟨hk, (isOtherBackup_iff q).mpr ⟨n1, n2, fun h => hmg (h ▸ hk), ?_⟩⟩
      simpa [isBackupPath, n1] using hb
    simp [roundTrip, hob q hb, this]
  · have hb' : isBackupPath q = false := by simpa using hb
    rw [find_backup_of_not_backup o S ho hS hb']
    cases hf : find o q with
    | none =>
      have : find S q = none := by
        rw [find_eq_none_iff]
        intro hk
        apply n3
        rw [mem_added o S hS, ho1, find_rm_backup_of_not hb']
        exact ⟨(isSome_find_iff S q).mpr hk, hf⟩
      simp [roundTrip, hf, this]
    | some e =>
      obtain ⟨_, _, r1, r2⟩ := hres q (find_some_mem_keys hf)
      have hko : isOtherBackup (str ".backup/" ++ q) = true := by
        rw [isOtherBackup_iff]
        refine ⟨prefixed_ne_backup q, ?_, ?_, str_starts_append _ _⟩
        · intro h
          have := congrArg (List.drop 8) h
          rw [drop_prefixed] at this
          exact r1 (this.trans (by decide))
        · intro h
          have := congrArg (List.drop 8) h
          rw [drop_prefixed] at this
          exact r2 (this.trans (by decide))
      have hnk : str ".backup/" ++ q ∉ keys (backup o S) := by
        intro hk
        exact h2 (List.mem_filter.mpr ⟨hk, hko⟩)
      have hl : find (lost o S) q = none := by
        rw [← find_backup_prefixed o S ho hS q r1]
        exact (find_eq_none_iff _ _).mpr hnk
      rw [hlost, hf] at hl
      simp only [Option.filter] at hl
      split_ifs at hl with hlc
      simp only [lostOrChanged, find_rm_backup_of_not hb'] at hlc
      cases hfs : find S q with
      | none => rw [hfs] at hlc; simp at hlc
      | some e' =>
        rw [hfs] at hlc
        simp only [ne_eq, decide_not, Bool.not_eq_true', decide_eq_false_iff_not,
          not_not] at hlc
        simp [roundTrip, hf, hfs, hlc]

/-- C1 as stated fails: `backup` first removes `.backup` recursively from the reference
store, so a reference store that holds entries there does not come back: with the
reference `{.backup, .backup/x}` and an empty current store, `backup` then `restore`
yields the empty store. -/
theorem backup_restore_drops_reference_backups :
    WF [(str ".backup", dirEntry), (str ".backup/x", ⟨0o100644, str "X"⟩)] ∧
      restore (backup [(str ".backup", dirEntry), (str ".backup/x", ⟨0o100644, str "X"⟩)] [])
        = some [] ∧
      restore (backup [(str ".backup", dirEntry), (str ".backup/x", ⟨0o100644, str "X"⟩)] [])
        ≠ some [(str ".backup", dirEntry), (str ".backup/x", ⟨0o100644, str "X"⟩)] := by
  decide

/-- C1, amended: for a reference store with no path equal to `.backup`, under `.backup/`,
or equal to `.rmlist` or `.magisk`, when no path of either store holds a NUL byte and
the current store holds the reference entry (mode included) wherever it holds the
reference data, `backup` followed by `restore` yields exactly the reference store. -/
theorem backup_restore_round_trip (o S : Store) (ho : WF o) (hS : WF S)
    (hres : ∀ k ∈ keys o, k ≠ str ".backup" ∧ str_starts k (str ".backup/") = false ∧
      k ≠ str ".rmlist" ∧ k ≠ str ".magisk")
    (hnulo : ∀ k ∈ keys o, 0 ∉ k) (hnulS : ∀ k ∈ keys S, 0 ∉ k)
    (hmode : ∀ k e e', find o k = some e → find S k = some e' → e.data = e'.data → e' = e) :
    restore (backup o S) = some o := by
  obtain ⟨R, hR, hRwf, hfind⟩ := restore_backup_find o S ho hS hres hnulo hnulS
  rw [hR]
  congr 1
  apply store_ext hRwf ho
  intro q
  rw [hfind, roundTrip]
  cases hf : find o q with
  | none => rfl
  | some e =>
    cases hfs : find S q with
    | none => rfl
    | some e' =>
      simp only
      split_ifs with hd
      · rw [hmode q e e' hf hfs hd]
      · rfl

theorem backup_restore_round_trip_witness :
    restore (backup [(str "a", ⟨0o100644, str "A"⟩), (str "b", ⟨0o100644, str "B"⟩)]
        [(str "a", ⟨0o100644, str "A"⟩), (str "b", ⟨0o100644, str "B2"⟩),
         (str "c", ⟨0o100644, str "C"⟩)]) =
      some [(str "a", ⟨0o100644, str "A"⟩), (str "b", ⟨0o100644, str "B"⟩)] :=
  backup_restore_round_trip _ _ (by decide) (by decide) (by decide) (by decide) (by decide)
    (by
      intro k e e' h1 h2 hd
      simp only [find] at h1 h2
      split_ifs at h1 h2 <;> simp only [Option.some.injEq, reduceCtorEq] at h1 h2 <;>
        subst h1 h2 <;> first | rfl | exact absurd hd (by decide))

/-! ## The effect of `patch` entry by entry -/

theorem patchEntry_eq (P : Patcher) (kv kfe : Bool) (k : Bytes) (e : Entry) :
    patchEntry P kv kfe (k, e) =
      if kv = false ∧ fstabFile k e.mode = false ∧ k = str "verity_key" then none
      else some (k, { mode := e.mode, data := patchedData P kv kfe k e }) := by
  have hf : (S_ISREG e.mode && !str_starts k (str ".backup") &&
      !str_contains k (str "twrp") && !str_contains k (str "recovery") &&
      str_contains k (str "fstab")) = fstabFile k e.mode := rfl
  unfold patchEntry patchedData
  simp only [Bool.and_assoc] at hf ⊢
  rw [hf]
  cases kv <;> cases kfe <;> cases fstabFile k e.mode <;>
    by_cases hk : k = str "verity_key" <;> simp [hk]

theorem find_filterMap_patchEntry (P : Patcher) (kv kfe : Bool) (S : Store) (k : Bytes)
    (e e' : Entry) (hf : find S k = some e)
    (hp : patchEntry P kv kfe (k, e) = some (k, e')) :
    find (S.filterMap (patchEntry P kv kfe)) k = some e' := by
  induction S with
  | nil => simp [find] at hf
  | cons x t ih =>
    obtain ⟨k0, e0⟩ := x
    by_cases hk : k0 = k
    · subst hk
      simp only [find, if_true, Option.some.injEq] at hf
      subst hf
      rw [List.filterMap_cons, hp]
      simp [find]
    · rw [find_cons_ne _ _ hk] at hf
      rw [List.filterMap_cons]
      cases hx : patchEntry P kv kfe (k0, e0) with
      | none => exact ih hf
      | some r =>
        have hr := patchEntry_fst P kv kfe _ r hx
        obtain ⟨rk, re⟩ := r
        simp only at hr
        subst hr
        simp only
        rw [find_cons_ne _ _ hk]
        exact ih hf

/-- C11: with both `KEEPVERITY` and `KEEPFORCEENCRYPT` exactly `true`, `patch` leaves the
store as it is: the same paths (a `verity_key` is kept) with the same mode and data. -/
theorem patch_keep_both (P : Patcher) (env : Env) (S : Store)
    (hv : env (str "KEEPVERITY") = some (str "true"))
    (he : env (str "KEEPFORCEENCRYPT") = some (str "true")) :
    patch P env S = S := by
  have h1 : check_env env (str "KEEPVERITY") = true := by simp [check_env, hv]
  have h2 : check_env env (str "KEEPFORCEENCRYPT") = true := by simp [check_env, he]
  have hid : patchEntry P true true = some := by
    funext x
    obtain ⟨k, e⟩ := x
    rw [patchEntry_eq]
    simp [patchedData]
  simp only [patch, h1, h2, hid]
  exact List.filterMap_some S

/-- C15: an fstab candidate (a regular file whose path does not start with `.backup`,
contains neither `twrp` nor `recovery` and contains `fstab`) keeps its path and mode
under `patch`, and its data becomes `patch_encryption (patch_verity d)` when both flags
are false, `patch_verity d` when only `KEEPVERITY` is false, and `patch_encryption d`
when only `KEEPFORCEENCRYPT` is false. -/
theorem patch_fstab_candidate (P : Patcher) (env : Env) (S : Store) (k : Bytes) (e : Entry)
    (hf : find S k = some e) (hreg : S_ISREG e.mode = true)
    (hb : str_starts k (str ".backup") = false)
    (ht : str_contains k (str "twrp") = false)
    (hr : str_contains k (str "recovery") = false)
    (hc : str_contains k (str "fstab") = true) :
    (check_env env (str "KEEPVERITY") = false →
      check_env env (str "KEEPFORCEENCRYPT") = false →
      find (patch P env S) k =
        some { mode := e.mode, data := P.patch_encryption (P.patch_verity e.data) }) ∧
    (check_env env (str "KEEPVERITY") = false →
      check_env env (str "KEEPFORCEENCRYPT") = true →
      find (patch P env S) k = some { mode := e.mode, data := P.patch_verity e.data }) ∧
    (check_env env (str "KEEPVERITY") = true →
      check_env env (str "KEEPFORCEENCRYPT") = false →
      find (patch P env S) k = some { mode := e.mode, data := P.patch_encryption e.data }) := by
  have hfile : fstabFile k e.mode = true := by simp [fstabFile, hreg, hb, ht, hr, hc]
  refine ⟨fun h1 h2 => ?_, fun h1 h2 => ?_, fun h1 h2 => ?_⟩ <;>
  · simp only [patch, h1, h2]
    apply find_filterMap_patchEntry P _ _ S k e _ hf
    rw [patchEntry_eq]
    simp [patchedData, hfile]

theorem patch_keep_both_witness :
    patch markPatcher envKeepBoth
        [(str "fstab.qcom", ⟨0o100644, str "x"⟩), (str "verity_key", ⟨0o100644, str "k"⟩)] =
      [(str "fstab.qcom", ⟨0o100644, str "x"⟩), (str "verity_key", ⟨0o100644, str "k"⟩)] :=
  patch_keep_both markPatcher envKeepBoth _ (by decide) (by decide)

theorem patch_fstab_candidate_witness :
    find (patch markPatcher (fun _ => none)
        [(str "fstab.qcom", ⟨0o100644, str "x"⟩), (str "verity_key", ⟨0o100644, str "k"⟩)])
      (str "fstab.qcom") = some ⟨0o100644, str "x" ++ [1] ++ [2]⟩ :=
  (patch_fstab_candidate markPatcher (fun _ => none)
    [(str "fstab.qcom", ⟨0o100644, str "x"⟩), (str "verity_key", ⟨0o100644, str "k"⟩)]
    (str "fstab.qcom") ⟨0o100644, str "x"⟩
    (by decide) (by decide) (by decide) (by decide) (by decide) (by decide)).1
    (by decide) (by decide)

theorem patchEntry_isSome (P : Patcher) (kv kfe : Bool) (k : Bytes) (e : Entry)
    (h : k ≠ str "verity_key" ∨ kv = true) :
    patchEntry P kv kfe (k, e) =
      some (k, { mode := e.mode, data := patchedData P kv kfe k e }) := by
  rw [patchEntry_eq, if_neg]
  rintro ⟨h1, _, h3⟩
  rcases h with h | h
  · exact h h3
  · rw [h] at h1; exact absurd h1 (by simp)

/-- C16: `patch` creates no entry, removes no entry other than `verity_key`, and leaves
unchanged (mode and data) every entry that stays and is not an fstab candidate: a
non-regular entry, one whose path starts with `.backup` or contains `twrp` or
`recovery`, or one whose path lacks `fstab`. -/
theorem patch_frame (P : Patcher) (env : Env) (S : Store) :
    (∀ k, k ∈ keys (patch P env S) → k ∈ keys S) ∧
    (∀ k, k ∈ keys S → k ≠ str "verity_key" → k ∈ keys (patch P env S)) ∧
    (∀ k e, find S k = some e →
      (S_ISREG e.mode = false ∨ str_starts k (str ".backup") = true ∨
        str_contains k (str "twrp") = true ∨ str_contains k (str "recovery") = true ∨
        str_contains k (str "fstab") = false) →
      (k ≠ str "verity_key" ∨ check_env env (str "KEEPVERITY") = true) →
      find (patch P env S) k = some e) := by
  refine ⟨?_, ?_, ?_⟩
  · intro k hk
    simp only [patch, keys, List.mem_map, List.mem_filterMap] at hk ⊢
    obtain ⟨r, ⟨cur, hcur, hr⟩, hrk⟩ := hk
    exact ⟨cur, hcur, by rw [← hrk, patchEntry_fst _ _ _ _ _ hr]⟩
  · intro k hk hne
    simp only [patch, keys, List.mem_map, List.mem_filterMap] at hk ⊢
    obtain ⟨⟨k0, e⟩, hcur, hk0⟩ := hk
    simp only at hk0
    subst hk0
    exact ⟨_, ⟨(k0, e), hcur, patchEntry_isSome P _ _ k0 e (Or.inl hne)⟩, rfl⟩
  · intro k e hf hnc hk
    simp only [patch]
    apply find_filterMap_patchEntry P _ _ S k e e hf
    rw [patchEntry_isSome P _ _ k e hk]
    have hfile : fstabFile k e.mode = false := by
      simp only [fstabFile]
      rcases hnc with h | h | h | h | h <;> simp [h]
    simp [patchedData, hfile]

/-- C17 as stated fails: the two rewriters of `clashPatcher` are each idempotent, and
with both flags false a second `patch` changes the data of `fstab` again: `[5]` becomes
`[0]` in the first pass and `[2]` in the second. -/
theorem patch_not_idempotent :
    (∀ d, clashPatcher.patch_verity (clashPatcher.patch_verity d) =
        clashPatcher.patch_verity d) ∧
    (∀ d, clashPatcher.patch_encryption (clashPatcher.patch_encryption d) =
        clashPatcher.patch_encryption d) ∧
    patch clashPatcher (fun _ => none) [(str "fstab", ⟨0o100644, [5]⟩)] =
      [(str "fstab", ⟨0o100644, [0]⟩)] ∧
    patch clashPatcher (fun _ => none)
        (patch clashPatcher (fun _ => none) [(str "fstab", ⟨0o100644, [5]⟩)]) =
      [(str "fstab", ⟨0o100644, [2]⟩)] := by
  refine ⟨?_, ?_, by decide, by decide⟩
  · intro d
    simp only [clashPatcher]
    split_ifs <;> simp_all
  · intro d
    simp only [clashPatcher]
    split_ifs <;> simp_all

theorem patchEntry_again (P : Patcher) (kv kfe : Bool)
    (hv : ∀ d, P.patch_verity (P.patch_verity d) = P.patch_verity d)
    (he : ∀ d, P.patch_encryption (P.patch_encryption d) = P.patch_encryption d)
    (hc : ∀ d, P.patch_encryption (P.patch_verity (P.patch_encryption (P.patch_verity d))) =
      P.patch_encryption (P.patch_verity d))
    (x r : Bytes × Entry) (h : patchEntry P kv kfe x = some r) :
    patchEntry P kv kfe r = some r := by
  obtain ⟨k, e⟩ := x
  rw [patchEntry_eq] at h
  split_ifs at h with hrm
  simp only [Option.some.injEq] at h
  subst h
  rw [patchEntry_eq]
  simp only
  rw [if_neg hrm]
  congr 3
  simp only [patchedData]
  cases kv <;> cases kfe <;> cases fstabFile k e.mode <;> simp [hv, he, hc]

/-- C17, amended: when `patch_verity` and `patch_encryption` are each idempotent and
their composite, verity first and then encryption, is idempotent as well, running
`patch` twice under the same flags yields the same store as running it once. -/
theorem patch_idempotent (P : Patcher) (env : Env) (S : Store)
    (hv : ∀ d, P.patch_verity (P.patch_verity d) = P.patch_verity d)
    (he : ∀ d, P.patch_encryption (P.patch_encryption d) = P.patch_encryption d)
    (hc : ∀ d, P.patch_encryption (P.patch_verity (P.patch_encryption (P.patch_verity d))) =
      P.patch_encryption (P.patch_verity d)) :
    patch P env (patch P env S) = patch P env S := by
  simp only [patch]
  rw [List.filterMap_filterMap]
  apply List.filterMap_congr
  intro x _
  cases hx : patchEntry P (check_env env (str "KEEPVERITY"))
      (check_env env (str "KEEPFORCEENCRYPT")) x with
  | none => rfl
  | some r =>
    exact patchEntry_again P _ _ hv he hc x r hx

theorem patch_idempotent_witness :
    patch stripPatcher (fun _ => none)
        (patch stripPatcher (fun _ => none)
          [(str "fstab.qcom", ⟨0o100644, [1, 2, 3]⟩), (str "verity_key", ⟨0o100644, []⟩)]) =
      patch stripPatcher (fun _ => none)
        [(str "fstab.qcom", ⟨0o100644, [1, 2, 3]⟩), (str "verity_key", ⟨0o100644, []⟩)] :=
  patch_idempotent stripPatcher (fun _ => none) _ (by intro d; simp [stripPatcher])
    (by intro d; simp [stripPatcher])
    (by intro d; simp only [stripPatcher, List.filter_filter]; congr 1; funext b;
        cases (b != 1) <;> cases (b != 2) <;> rfl)

/-! ## Skipped commands and composed invocations -/

theorem splitCommand_skipped (c : Bytes)
    (h : strtokAll (cstr c) [] = [] ∨
      ∃ tok rest, strtokAll (cstr c) [] = tok :: rest ∧ tok.head? = some 35) :
    splitCommand c = [] := by
  unfold splitCommand
  rcases h with h | ⟨tok, rest, h, hh⟩
  · simp [h]
  · simp [h, hh]

theorem runCommands_skip (w : World) (S : Store) (c : Bytes) (pre post : List Bytes)
    (h : splitCommand c = []) :
    runCommands w S (pre ++ c :: post) = runCommands w S (pre ++ post) := by
  induction pre generalizing S with
  | nil =>
    simp only [List.nil_append, runCommands, h]
    simp [runCommand]
  | cons a t ih =>
    simp only [List.cons_append, runCommands]
    cases runCommand w S (splitCommand a) with
    | next S' => exact ih S'
    | exit code => rfl
    | ret code => rfl
    | undefined => rfl

/-- C12: a command string that tokenizes to nothing, or whose first token starts with
`#`, can be inserted at any position of the command list without changing the outcome
of `cpio_commands`: the same status, the same decision whether the archive is written
back, and the same resulting store. -/
theorem cpio_commands_skips (w : World) (incpio c : Bytes) (pre post : List Bytes)
    (h : strtokAll (cstr c) [] = [] ∨
      ∃ tok rest, strtokAll (cstr c) [] = tok :: rest ∧ tok.head? = some 35) :
    cpio_commands w incpio (pre ++ c :: post) = cpio_commands w incpio (pre ++ post) := by
  unfold cpio_commands
  exact runCommands_skip w _ c pre post (splitCommand_skipped c h)

theorem cpio_commands_skips_witness :
    cpio_commands fooWorld (str "boot.cpio") ([] ++ str "# skip" :: [str "exists foo"]) =
        cpio_commands fooWorld (str "boot.cpio") ([] ++ [str "exists foo"]) ∧
      cpio_commands fooWorld (str "boot.cpio") [str "# skip", str "exists foo"] =
        Outcome.exited 0 :=
  ⟨cpio_commands_skips fooWorld (str "boot.cpio") (str "# skip") [] [str "exists foo"]
    (Or.inr ⟨str "#", [str "skip"], by decide, by decide⟩), by decide⟩

theorem runCommand_reloaded (w w1 : World) (isArchive : Bytes → Bool) (incpio : Bytes)
    (D S : Store) (cmdv : List Bytes) (hw : Reloaded w isArchive incpio D w1)
    (href : cmdv.getD 0 [] = str "backup" → isArchive (cmdv.getD 1 []) = false)
    (hadd : cmdv.getD 0 [] = str "add" → isArchive (cmdv.getD 3 []) = false) :
    runCommand w1 S cmdv = runCommand w S cmdv := by
  obtain ⟨_, _, hload, haddf, hpat, henv, hmv, hext, hmk, hln, hstr⟩ := hw
  by_cases hbk : cmdv.length = 2 ∧ cmdv.getD 0 [] = str "backup"
  · have hl := hload _ (href hbk.2)
    have hna : ¬ (cmdv.length = 4 ∧ cmdv.getD 0 [] = str "add") := fun h => by omega
    simp only [runCommand, hpat, henv, hmv, hext, hmk, hln, hstr, hl, hna, if_false]
  · by_cases had : cmdv.length = 4 ∧ cmdv.getD 0 [] = str "add"
    · have ha := haddf S (w.strtoul8 (cmdv.getD 1 [])) (cmdv.getD 2 []) (cmdv.getD 3 [])
        (hadd had.2)
      simp only [runCommand, hpat, henv, hmv, hext, hmk, hln, hstr, hbk, ha, if_false]
    · simp only [runCommand, hpat, henv, hmv, hext, hmk, hln, hstr, hbk, had, if_false]

/-- C13 as stated fails: `extract` returns without writing the archive back. In one
invocation `extract` then `rm foo` writes nothing, so the archive on disk stays as it
was loaded, with `foo`; `extract` alone writes nothing either, so the archive reloads as
it was, and an invocation of `rm foo` alone then writes the empty store. -/
theorem extract_breaks_composition :
    fooWorld.load_cpio (str "boot.cpio") = some [(str "foo", ⟨0o100644, str "F"⟩)] ∧
      cpio_commands fooWorld (str "boot.cpio") [str "extract", str "rm foo"] =
        Outcome.returned 0 none ∧
      cpio_commands fooWorld (str "boot.cpio") [str "extract"] = Outcome.returned 0 none ∧
      cpio_commands fooWorld (str "boot.cpio") [str "rm foo"] =
        Outcome.returned 0 (some []) := by
  decide

/-- C13, amended: let `A` and `B` be commands after which the loop goes on (neither is
`test`, `exists`, `extract`, a rejected command or a `restore` without a defined
result), `B` being neither a `backup` whose reference names the archive file nor an
`add` whose payload file names it. Then one invocation running `A` then `B` dumps the
same store as an invocation of `B` alone does on the host that the invocation of `A`
alone has left, where the archive reloads as the store that `A` alone dumped. -/
theorem cpio_commands_compose (w : World) (isArchive : Bytes → Bool) (incpio A B : Bytes)
    (S1 S2 : Store)
    (hA : runCommand w ((w.load_cpio incpio).getD []) (splitCommand A) = Step.next S1)
    (hB : runCommand w S1 (splitCommand B) = Step.next S2)
    (href : (splitCommand B).getD 0 [] = str "backup" →
      isArchive ((splitCommand B).getD 1 []) = false)
    (hadd : (splitCommand B).getD 0 [] = str "add" →
      isArchive ((splitCommand B).getD 3 []) = false) :
    cpio_commands w incpio [A, B] = Outcome.returned 0 (some S2) ∧
      cpio_commands w incpio [A] = Outcome.returned 0 (some S1) ∧
      ∀ w1, Reloaded w isArchive incpio S1 w1 →
        cpio_commands w1 incpio [B] = Outcome.returned 0 (some S2) := by
  refine ⟨?_, ?_, ?_⟩
  · simp only [cpio_commands, runCommands, hA, hB]
  · simp only [cpio_commands, runCommands, hA]
  · intro w1 hw
    have hl : w1.load_cpio incpio = some S1 := hw.2.1
    simp only [cpio_commands, runCommands, hl, Option.getD_some]
    rw [runCommand_reloaded w w1 isArchive incpio S1 S1 _ hw href hadd, hB]

theorem cpio_commands_compose_witness :
    cpio_commands refWorld (str "boot.cpio") [str "rm foo", str "backup orig.cpio"] =
        Outcome.returned 0
          (some [(str ".backup", dirEntry), (str ".backup/foo", ⟨0o100644, str "F"⟩)]) ∧
      cpio_commands refWorld (str "boot.cpio") [str "rm foo"] =
        Outcome.returned 0 (some []) ∧
      cpio_commands refWorldAfter (str "boot.cpio") [str "backup orig.cpio"] =
        Outcome.returned 0
          (some [(str ".backup", dirEntry), (str ".backup/foo", ⟨0o100644, str "F"⟩)]) ∧
      cpio_commands refWorld (str "boot.cpio") [str "backup orig.cpio"] =
        Outcome.returned 0 (some [(str "foo", ⟨0o100644, str "F"⟩)]) :=
  have h := cpio_commands_compose refWorld (fun p => p == str "boot.cpio")
    (str "boot.cpio") (str "rm foo") (str "backup orig.cpio") []
    [(str ".backup", dirEntry), (str ".backup/foo", ⟨0o100644, str "F"⟩)]
    (by decide) (by decide) (by decide) (by decide)
  ⟨h.1, h.2.1,
    h.2.2 refWorldAfter
      ⟨by decide, by decide,
        fun p hp => by
          have hp' : ¬ p = str "boot.cpio" := by simpa using hp
          simp [refWorldAfter, refWorld, hp'],
        fun _ _ _ _ _ => rfl, rfl, rfl, rfl, rfl, rfl, rfl, rfl⟩,
    by decide⟩

/-! ## The removal list without a final NUL -/

/-- C14 fails on the code: with the removal list `c` (no final NUL) the loop
`for_each_str` runs `strlen` past the end of the buffer and `restore` has no defined
result, while with the list `c` followed by a NUL it removes `c` and leaves the empty
store. -/
theorem restore_unterminated_rmlist :
    for_each_str (str "c") = none ∧
      for_each_str (str "c" ++ [0]) = some [str "c"] ∧
      restore [(str ".backup/.rmlist", ⟨S_IFREG, str "c"⟩), (str "c", ⟨0o100644, str "C"⟩)] =
        none ∧
      restore [(str ".backup/.rmlist", ⟨S_IFREG, str "c" ++ [0]⟩),
        (str "c", ⟨0o100644, str "C"⟩)] = some [] := by
  decide

/-! ## The round trip path by path -/

/-- C18: for a reference store with no path equal to `.backup`, under `.backup/`, or
equal to `.rmlist` or `.magisk`, and a current store whose paths hold no NUL byte (the
paths of the reference store are C strings as well), `backup` followed by `restore`
yields a store with exactly the paths of the reference store and the reference data at
each; a path that was missing from the current store or held different data carries the
whole reference entry, and a path with equal data keeps the current entry. -/
theorem backup_restore_paths_and_data (o S : Store) (ho : WF o) (hS : WF S)
    (hres : ∀ k ∈ keys o, k ≠ str ".backup" ∧ str_starts k (str ".backup/") = false ∧
      k ≠ str ".rmlist" ∧ k ≠ str ".magisk")
    (hnulo : CStrings o) (hnulS : CStrings S) :
    ∃ R, restore (backup o S) = some R ∧
      (∀ q, q ∈ keys R ↔ q ∈ keys o) ∧
      (∀ q e, find o q = some e → ∃ e', find R q = some e' ∧ e'.data = e.data) ∧
      (∀ q e, find o q = some e →
        (find S q = none ∨ ∃ e', find S q = some e' ∧ e'.data ≠ e.data) →
        find R q = some e) ∧
      (∀ q e e', find o q = some e → find S q = some e' → e'.data = e.data →
        find R q = some e') := by
  obtain ⟨R, hR, _, hfind⟩ := restore_backup_find o S ho hS hres hnulo hnulS
  refine ⟨R, hR, ?_, ?_, ?_, ?_⟩
  · intro q
    rw [← isSome_find_iff, ← isSome_find_iff, hfind, roundTrip]
    cases find o q with
    | none => simp
    | some e =>
      cases find S q with
      | none => simp
      | some e' => simp only; split_ifs <;> simp
  · intro q e hq
    rw [hfind, roundTrip, hq]
    cases find S q with
    | none => exact ⟨e, rfl, rfl⟩
    | some e' =>
      simp only
      split_ifs with hd
      · exact ⟨e', rfl, hd.symm⟩
      · exact ⟨e, rfl, rfl⟩
  · intro q e hq hch
    rw [hfind, roundTrip, hq]
    rcases hch with h | ⟨e', h, hd⟩
    · rw [h]
    · rw [h]
      simp only
      rw [if_neg (fun h2 => hd h2.symm)]
  · intro q e e' hq hs hd
    rw [hfind, roundTrip, hq, hs]
    simp only
    rw [if_pos hd.symm]

theorem backup_restore_paths_and_data_witness :
    ∃ R, restore (backup [(str "a", ⟨0o100600, str "A"⟩), (str "b", ⟨0o100644, str "B"⟩)]
        [(str "a", ⟨0o100644, str "A"⟩), (str "b", ⟨0o100644, str "B2"⟩),
         (str "c", ⟨0o100644, str "C"⟩)]) = some R ∧
      find R (str "a") = some ⟨0o100644, str "A"⟩ ∧
      find R (str "b") = some ⟨0o100644, str "B"⟩ ∧
      ¬ (str "c" ∈ keys R) := by
  obtain ⟨R, hR, h1, _, h3, h4⟩ := backup_restore_paths_and_data
    [(str "a", ⟨0o100600, str "A"⟩), (str "b", ⟨0o100644, str "B"⟩)]
    [(str "a", ⟨0o100644, str "A"⟩), (str "b", ⟨0o100644, str "B2"⟩),
     (str "c", ⟨0o100644, str "C"⟩)]
    (by decide) (by decide) (by decide) (by decide) (by decide)
  refine ⟨R, hR, ?_, ?_, ?_⟩
  · exact h4 (str "a") ⟨0o100600, str "A"⟩ ⟨0o100644, str "A"⟩ (by decide) (by decide) rfl
  · exact h3 (str "b") ⟨0o100644, str "B"⟩ (by decide)
      (Or.inr ⟨⟨0o100644, str "B2"⟩, by decide, by decide⟩)
  · rw [h1]; decide

/-! ## `backup` run again, and what `backup` leaves alone -/

theorem backup_eq_stagingMap (o S : Store) :
    backup o S =
      if (stagingMap o S).length > 1 then merge (rm S (str ".backup") true) (stagingMap o S)
      else rm S (str ".backup") true := rfl

theorem stagingMap_eq (o S : Store) (ho : WF o) (hS : WF S) : stagingMap o S = staged o S := by
  unfold stagingMap
  simp only
  rw [walkFuel_eq _ _ _ _ _ (WF_rm ho _ _) (WF_rm hS _ _) (le_refl _)]
  simp only [List.nil_append]
  rfl

theorem rm_backup_idem (S : Store) :
    rm (rm S (str ".backup") true) (str ".backup") true = rm S (str ".backup") true := by
  rw [rm_backup_eq, rm_backup_eq, List.filter_filter]
  simp

theorem backup_of_rm (o S : Store) : backup o (rm S (str ".backup") true) = backup o S := by
  simp only [backup, rm_backup_idem]

theorem isBackupPath_of_mem_staged (o S : Store) {q : Bytes} (h : q ∈ keys (staged o S)) :
    isBackupPath q = true := by
  by_contra hq
  rw [Bool.not_eq_true] at hq
  exact (find_eq_none_iff _ _).mp (find_staged_of_not_backup o S hq) h

theorem not_backupPath_of_mem_rm (S : Store) {q : Bytes}
    (h : q ∈ keys (rm S (str ".backup") true)) : isBackupPath q = false := by
  rw [rm_backup_eq] at h
  obtain ⟨x, hx, hxq⟩ := List.mem_map.mp h
  have := (List.mem_filter.mp hx).2
  rw [hxq] at this
  simpa using this

theorem rm_backup_of_backup (o S : Store) (ho : WF o) (hS : WF S) :
    rm (backup o S) (str ".backup") true = rm S (str ".backup") true := by
  apply store_ext (WF_rm (WF_backup ho hS) _ _) (WF_rm hS _ _)
  intro q
  rw [find_rm_backup, find_rm_backup]
  by_cases hq : isBackupPath q = true
  · rw [if_pos hq, if_pos hq]
  · rw [if_neg hq, if_neg hq]
    exact find_backup_of_not_backup o S ho hS (by simpa using hq)

/-- C19: running `backup` with the same reference twice in a row yields the same current
store as running it once, and the result depends on the current store only through the
store cleared of `.backup`: stale entries there never reach the result. -/
theorem backup_idempotent (o S : Store) (ho : WF o) (hS : WF S) :
    backup o (backup o S) = backup o S ∧
      backup o S = backup o (rm S (str ".backup") true) := by
  refine ⟨?_, (backup_of_rm o S).symm⟩
  rw [← backup_of_rm o (backup o S), rm_backup_of_backup o S ho hS, backup_of_rm]

theorem backup_idempotent_witness :
    backup [(str "a", ⟨0o100644, str "A"⟩), (str "b", ⟨0o100644, str "B"⟩)]
        (backup [(str "a", ⟨0o100644, str "A"⟩), (str "b", ⟨0o100644, str "B"⟩)]
          [(str ".backup", dirEntry), (str ".backup/old", ⟨0o100644, str "O"⟩),
           (str "b", ⟨0o100644, str "B2"⟩), (str "c", ⟨0o100644, str "C"⟩)]) =
      backup [(str "a", ⟨0o100644, str "A"⟩), (str "b", ⟨0o100644, str "B"⟩)]
        [(str ".backup", dirEntry), (str ".backup/old", ⟨0o100644, str "O"⟩),
         (str "b", ⟨0o100644, str "B2"⟩), (str "c", ⟨0o100644, str "C"⟩)] :=
  (backup_idempotent _ _ (by decide) (by decide)).1

/-- C20: `backup` leaves every entry whose path is neither `.backup` nor under `.backup/`
as it was (same presence, mode and data) and adds no such path; the keys of the staging
map are disjoint from the keys of the cleared current store, and when the staging map is
merged (into the cleared current store, the last step of `backup`) every staged entry is
in the current store afterwards. -/
theorem backup_frame (o S : Store) (ho : WF o) (hS : WF S) :
    (∀ q, q ≠ str ".backup" → str_starts q (str ".backup/") = false →
      find (backup o S) q = find S q) ∧
    (∀ q, q ∈ keys (stagingMap o S) → q ∉ keys (rm S (str ".backup") true)) ∧
    ((stagingMap o S).length > 1 →
      ∀ q e, find (stagingMap o S) q = some e → find (backup o S) q = some e) ∧
    backup o S =
      (if (stagingMap o S).length > 1 then
        merge (rm S (str ".backup") true) (stagingMap o S)
      else rm S (str ".backup") true) := by
  refine ⟨?_, ?_, ?_, backup_eq_stagingMap o S⟩
  · intro q h1 h2
    exact find_backup_of_not_backup o S ho hS (by simp [isBackupPath, h1, h2])
  · intro q hq hq'
    rw [stagingMap_eq o S ho hS] at hq
    have := isBackupPath_of_mem_staged o S hq
    rw [not_backupPath_of_mem_rm S hq'] at this
    exact absurd this (by simp)
  · intro hlen q e hq
    rw [backup_eq_stagingMap, if_pos hlen, stagingMap_eq o S ho hS,
      find_merge _ (WF_staged o S), ← stagingMap_eq o S ho hS, hq]
    rfl

theorem backup_frame_witness :
    find (backup [(str "a", ⟨0o100644, str "A"⟩), (str "b", ⟨0o100644, str "B"⟩)]
        [(str "a", ⟨0o100644, str "A"⟩), (str "b", ⟨0o100644, str "B2"⟩),
         (str "c", ⟨0o100644, str "C"⟩)]) (str "b") = some ⟨0o100644, str "B2"⟩ ∧
      find (backup [(str "a", ⟨0o100644, str "A"⟩), (str "b", ⟨0o100644, str "B"⟩)]
        [(str "a", ⟨0o100644, str "A"⟩), (str "b", ⟨0o100644, str "B2"⟩),
         (str "c", ⟨0o100644, str "C"⟩)]) (str ".backup/b") = some ⟨0o100644, str "B"⟩ :=
  ⟨((backup_frame _ _ (by decide) (by decide)).1 (str "b") (by decide) (by decide)).trans
      (by decide),
   (backup_frame [(str "a", ⟨0o100644, str "A"⟩), (str "b", ⟨0o100644, str "B"⟩)]
      [(str "a", ⟨0o100644, str "A"⟩), (str "b", ⟨0o100644, str "B2"⟩),
       (str "c", ⟨0o100644, str "C"⟩)] (by decide) (by decide)).2.2.1 (by decide)
      (str ".backup/b") ⟨0o100644, str "B"⟩ (by decide)⟩

end Ramdisk
